import Mathlib

/-!
Verification development for the `obsidian-ntfy-reminders` plugin
(`src/main.new.js`).  The JavaScript source is shallowly embedded:

* instants are integers (milliseconds on a uniform timeline; the source
  uses `moment` in the local time zone — DST irregularities of `add`
  with calendar units are out of the model, each recurrence unit has a
  fixed millisecond length, matching `moment.diff`'s truncating
  millisecond-based arithmetic for minutes/hours/days/weeks);
* JavaScript strings are `List Char` (the source only manipulates
  BMP text, so UTF-16 indices coincide with character indices);
* the `Map`/`Set` registry state is modelled by association lists
  that keep insertion order, exactly mirroring `Map.set`, `Map.delete`,
  `Set.add`, `Set.delete`;
* `window.setTimeout` handles are modelled by a fresh-counter: each
  platform timer created gets the next handle number.
-/

/-! ### Recurrence units (`normalizeUnit` result type) -/

inductive RUnit where
  | minutes
  | hours
  | days
  | weeks
deriving DecidableEq, Repr

/-- `{ every, unit }` recurrence object attached by `parseClockEmojiAll`. -/
structure Recur where
  every : Nat
  unit : RUnit
deriving DecidableEq, Repr

/-- Fixed millisecond length of one recurrence unit. -/
def unitMsN : RUnit → Nat
  | RUnit.minutes => 60000
  | RUnit.hours => 3600000
  | RUnit.days => 86400000
  | RUnit.weeks => 604800000

/-- Milliseconds of one recurrence step `every × unit`. -/
def stepMsN (r : Recur) : Nat := r.every * unitMsN r.unit

theorem unitMsN_pos (u : RUnit) : 0 < unitMsN u := by
  cases u <;> simp [unitMsN]

/-! ### `advanceToFuture` (src/main.new.js lines 634-646)

```js
function advanceToFuture(when, recur, now) {
  const { every, unit } = recur;
  if (!every || !unit) return null;
  let next = when.clone();
  if (!next.isAfter(now)) {
    const diff = now.diff(next, unit);
    if (diff >= 0) {
      const steps = Math.floor(diff / every) + 1;
      next.add(steps * every, unit);
    }
  }
  return next;
}
```
`!every` is JavaScript falsiness: `every = 0` yields `null`.  `unit`
is always a non-empty string here, so `!unit` is never taken.
`now.diff(next, unit)` truncates the millisecond difference to whole
units; with `when ≤ now` it is the floor, hence `Nat` division below. -/
def advanceToFuture (whenMs : Int) (recur : Recur) (now : Int) : Option Int :=
  if recur.every = 0 then none
  else if now < whenMs then some whenMs
  else
    some (whenMs +
      (((now - whenMs).toNat / unitMsN recur.unit / recur.every + 1) *
        recur.every * unitMsN recur.unit : Nat))

/-! ### The fire-callback successor loop (src/main.new.js lines 302-304)

```js
const now = moment();
let next = when.clone().add(recur.every, recur.unit);
while (!next.isAfter(now)) next.add(recur.every, recur.unit);
```
`addUntil` is the `while` loop.  The `step ≤ 0` escape branch is a
termination artifact only: the source always runs it with
`recur.every ≥ 1` (parser invariant), so `step > 0` there. -/
def addUntil (step : Int) (now : Int) (next : Int) : Int :=
  if now < next ∨ step ≤ 0 then next
  else addUntil step now (next + step)
termination_by (now + step - next).toNat
decreasing_by
  rename_i h
  have h1 : ¬ now < next ∧ ¬ step ≤ 0 := not_or.mp h
  have h2 : next ≤ now := le_of_not_lt h1.1
  have h3 : 0 < step := lt_of_not_le h1.2
  omega

/-- Successor instant computed by the fire callback for a recurring timer. -/
def fireSuccessor (whenMs : Int) (r : Recur) (now : Int) : Int :=
  addUntil (stepMsN r) now (whenMs + stepMsN r)

/-- Support: every natural is strictly below the next multiple of a
positive divisor. -/
theorem natLtDivSuccMul (a b : Nat) (hb : 0 < b) : a < (a / b + 1) * b := by
  have h := Nat.div_add_mod a b
  have h2 := Nat.mod_lt a hb
  calc a = b * (a / b) + a % b := h.symm
    _ < b * (a / b) + b := by omega
    _ = (a / b + 1) * b := by ring

theorem addUntil_spec (step now next : Int) (hstep : 0 < step) :
    ∃ k : Nat, addUntil step now next = next + k * step ∧
      now < next + k * step ∧ (k = 0 ∨ next + (k - 1 : Nat) * step ≤ now) := by
  generalize hm : (now + step - next).toNat = m
  induction m using Nat.strong_induction_on generalizing next with
  | _ m ih =>
    rw [addUntil]
    by_cases hlt : now < next ∨ step ≤ 0
    · simp only [hlt, if_pos]
      refine ⟨0, by ring_nf, ?_, Or.inl rfl⟩
      rcases hlt with h | h
      · simpa using h
      · omega
    · simp only [hlt, if_neg, not_false_iff]
      push_neg at hlt
      have h1 : next ≤ now := hlt.1
      have hm2 : (now + step - (next + step)).toNat < m := by omega
      obtain ⟨k, hk1, hk2, hk3⟩ := ih _ hm2 (next + step) rfl
      refine ⟨k + 1, ?_, ?_, Or.inr ?_⟩
      · rw [hk1]; push_cast; ring
      · have heq : next + step + (k : Int) * step = next + ((k : Nat) + 1 : Nat) * step := by
          push_cast; ring
        rw [← heq]; exact hk2
      · rcases hk3 with h0 | hle
        · subst h0; simpa using h1
        · have hle2 : (next + step) + (((k : Nat) - 1 : Nat) : Int) * step ≤ now := hle
          have hcast : ((k + 1 : Nat) - 1 : Nat) = (k : Nat) := by omega
          rw [hcast]
          rcases Nat.eq_zero_or_pos k with hk0 | hkpos
          · subst hk0; simpa using h1
          · have hkk : ((k : Nat) : Int) = 1 + (((k : Nat) - 1 : Nat) : Int) := by omega
            calc next + ((k : Nat) : Int) * step
                = (next + step) + (((k : Nat) - 1 : Nat) : Int) * step := by
                  rw [hkk]; ring
              _ ≤ now := hle2

/-- Support: the closed form of `advanceToFuture` lands strictly after `now`. -/
theorem advanceToFuture_of_past (whenMs now : Int) (r : Recur)
    (hev : 1 ≤ r.every) (hpast : whenMs ≤ now) :
    ∃ k : Nat, 1 ≤ k ∧
      advanceToFuture whenMs r now = some (whenMs + (k * stepMsN r : Nat)) ∧
      now < whenMs + (k * stepMsN r : Nat) := by
  have hev0 : ¬ r.every = 0 := by omega
  have hlt : ¬ now < whenMs := by omega
  unfold advanceToFuture
  rw [if_neg hev0, if_neg hlt]
  set u := unitMsN r.unit with hu
  have hupos : 0 < u := unitMsN_pos r.unit
  set D : Nat := (now - whenMs).toNat with hD
  have hDval : (D : Int) = now - whenMs := by rw [hD]; omega
  set steps : Nat := D / u / r.every + 1 with hsteps
  have hrw : (steps * stepMsN r : Nat) = steps * r.every * u := by
    show steps * (r.every * u) = steps * r.every * u
    ring
  refine ⟨steps, Nat.succ_le_succ (Nat.zero_le _), by rw [hrw], ?_⟩
  rw [hrw]
  have h2 : D < (D / u + 1) * u := natLtDivSuccMul D u hupos
  have h3 : D / u < steps * r.every := by
    have h := natLtDivSuccMul (D / u) r.every (by omega)
    calc D / u < (D / u / r.every + 1) * r.every := h
      _ = steps * r.every := by rw [hsteps]
  have h4 : (D / u + 1) * u ≤ steps * r.every * u :=
    Nat.mul_le_mul_right u (by omega)
  have h6 : D < steps * r.every * u := lt_of_lt_of_le h2 h4
  have h7 : (D : Int) < (steps * r.every * u : Nat) := by exact_mod_cast h6
  omega

/-! ### Timer ids (src/main.new.js line 261)

```js
const id = `${filePath}#${lineIndex}#${when.unix()}#${offset}`;
```
JavaScript strings are modelled as `List Char`; decimal rendering of
the numbers is `natChars`/`intChars` (fuel-structured so the kernel
can evaluate it). -/

def digitCh : Nat → Char
  | 0 => '0' | 1 => '1' | 2 => '2' | 3 => '3' | 4 => '4'
  | 5 => '5' | 6 => '6' | 7 => '7' | 8 => '8' | _ => '9'

def natCharsGo : Nat → Nat → List Char
  | 0, _ => []
  | f + 1, n => if n < 10 then [digitCh n] else natCharsGo f (n / 10) ++ [digitCh (n % 10)]

/-- Decimal digits of a natural number (JavaScript `String(n)` for `n : Nat`). -/
def natChars (n : Nat) : List Char := natCharsGo (n + 1) n

/-- Decimal rendering of an integer (JavaScript `String(i)`). -/
def intChars (i : Int) : List Char :=
  if i < 0 then '-' :: natChars i.natAbs else natChars i.toNat

/-- `moment.unix()`: `Math.floor(valueOf() / 1000)`. -/
def unixOf (ms : Int) : Int := Int.fdiv ms 1000

/-- The composite timer id string `path#line#unixSeconds#offset`. -/
def schedId (path : List Char) (line : Nat) (whenMs : Int) (off : Nat) : List Char :=
  path ++ '#' :: (natChars line ++ '#' :: (intChars (unixOf whenMs) ++ '#' :: natChars off))

/-- The prefix `path#line#` used by `clearTimersForLine`. -/
def linePrefix (path : List Char) (line : Nat) : List Char :=
  path ++ '#' :: (natChars line ++ ['#'])

/-- JavaScript `String.prototype.startsWith` on char lists. -/
def startsWithB : List Char → List Char → Bool
  | _, [] => true
  | [], _ :: _ => false
  | a :: as, b :: bs => a = b && startsWithB as bs

/-! ### Timer Registry state

`this.timerHandles : Map id -> setTimeout-handle` and
`this.fileTimers : Map path -> Set id` (src/main.new.js lines 34-35),
as insertion-ordered association lists.  `nextHandle` models the
platform timer facility: every `window.setTimeout` call yields the
next handle number, so a growing `nextHandle` counts created timers. -/

structure Reg where
  timerHandles : List (List Char × Nat)
  fileTimers : List (List Char × List (List Char))
  nextHandle : Nat
deriving DecidableEq, Repr

def Reg.empty : Reg := ⟨[], [], 0⟩

/-- `Map.get` (first—and with unique keys, only—binding). -/
def lookupA {β : Type} : List (List Char × β) → List Char → Option β
  | [], _ => none
  | (k2, v) :: rest, k => if k2 = k then some v else lookupA rest k

/-- `Map.set`: overwrite in place if present, else append. -/
def setA {β : Type} (l : List (List Char × β)) (k : List Char) (v : β) : List (List Char × β) :=
  if (lookupA l k).isSome then l.map (fun kv => if kv.1 = k then (k, v) else kv)
  else l ++ [(k, v)]

/-- `Map.delete`. -/
def delA {β : Type} (l : List (List Char × β)) (k : List Char) : List (List Char × β) :=
  l.filter (fun kv => ¬ kv.1 = k)

/-- `setTimeout`'s documented single-shot limit (src/main.new.js line 29). -/
def MAX_TIMEOUT_MS : Int := 0x7fffffff

/-! ### `scheduleOneReminder` (src/main.new.js lines 260-321)

Registry-relevant portion only: `prio` and `context` are captured by
the fire closure for the notification text and never touch the
registry, so they are not carried here; the `recentInsert` notice
block (lines 314-320) is UI-only and also outside the model.  The
fire callback itself is modelled separately as `fireTimer`. -/
def scheduleOneReminder (s : Reg) (path : List Char) (line : Nat) (whenMs : Int)
    (off : Nat) (recur : Option Recur) (now : Int) : Reg :=
  let id := schedId path line whenMs off
  if (lookupA s.timerHandles id).isSome then s
  else
    let ms := whenMs - now
    if ms ≤ 0 then s
    else if MAX_TIMEOUT_MS < ms then s
    else
      { timerHandles := setA s.timerHandles id s.nextHandle
        fileTimers :=
          match lookupA s.fileTimers path with
          | none => s.fileTimers ++ [(path, [id])]
          | some ids => setA s.fileTimers path (if id ∈ ids then ids else ids ++ [id])
        nextHandle := s.nextHandle + 1 }

/-- `clearTimersForFile` (src/main.new.js lines 324-334). -/
def clearTimersForFile (s : Reg) (path : List Char) : Reg :=
  match lookupA s.fileTimers path with
  | none => s
  | some ids =>
    { timerHandles := s.timerHandles.filter (fun kv => ¬ kv.1 ∈ ids)
      fileTimers := delA s.fileTimers path
      nextHandle := s.nextHandle }

/-- `clearTimersForLine` (src/main.new.js lines 337-350). -/
def clearTimersForLine (s : Reg) (path : List Char) (line : Nat) : Reg :=
  match lookupA s.fileTimers path with
  | none => s
  | some ids =>
    let pre := linePrefix path line
    let keep := ids.filter (fun id => ¬ startsWithB id pre = true)
    { timerHandles := s.timerHandles.filter
        (fun kv => ¬ (kv.1 ∈ ids ∧ startsWithB kv.1 pre = true))
      fileTimers := if keep = [] then delA s.fileTimers path else setA s.fileTimers path keep
      nextHandle := s.nextHandle }

/-- `clearAllTimers` (src/main.new.js lines 109-114). -/
def clearAllTimers (s : Reg) : Reg :=
  { timerHandles := [], fileTimers := [], nextHandle := s.nextHandle }

/-- The `finally` block of the fire callback (src/main.new.js lines
292-298): remove the fired id from both indices, dropping the
document's id-set when it becomes empty. -/
def removeTimer (s : Reg) (path : List Char) (line : Nat) (whenMs : Int) (off : Nat) : Reg :=
  let id := schedId path line whenMs off
  { timerHandles := delA s.timerHandles id
    fileTimers :=
      match lookupA s.fileTimers path with
      | none => s.fileTimers
      | some ids =>
        let ids2 := ids.filter (fun x => ¬ x = id)
        if ids2 = [] then delA s.fileTimers path else setA s.fileTimers path ids2
    nextHandle := s.nextHandle }

/-- The whole fire callback (src/main.new.js lines 278-308) as a state
transition: the send itself (`sendNtfy`, gated on `isSender`) does not
touch the registry; then the `finally` block removes the id and, only
`if (recur && this.isSender)`, schedules the successor computed by the
`while (!next.isAfter(now)) next.add(...)` loop. -/
def fireTimer (s : Reg) (path : List Char) (line : Nat) (whenMs : Int) (off : Nat)
    (recur : Option Recur) (isSender : Bool) (now : Int) : Reg :=
  let s1 := removeTimer s path line whenMs off
  match recur, isSender with
  | some r, true => scheduleOneReminder s1 path line (fireSuccessor whenMs r now) off (some r) now
  | _, _ => s1

/-! ### Support lemmas about the association-list registry -/

theorem stepMsN_posI (r : Recur) (hev : 1 ≤ r.every) : (0 : Int) < (stepMsN r : Nat) := by
  have h := unitMsN_pos r.unit
  have : 0 < stepMsN r := Nat.mul_pos (by omega) h
  exact_mod_cast this

theorem lookupA_append_one {β : Type} (l : List (List Char × β)) (k : List Char) (v : β)
    (h : lookupA l k = none) : lookupA (l ++ [(k, v)]) k = some v := by
  induction l with
  | nil => simp [lookupA]
  | cons kv rest ih =>
    simp only [lookupA, List.cons_append] at h ⊢
    by_cases hk : kv.1 = k
    · simp [hk] at h
    · rw [if_neg hk] at h ⊢
      exact ih h

theorem lookupA_map_set {β : Type} (l : List (List Char × β)) (k : List Char) (v : β)
    (h : (lookupA l k).isSome = true) :
    lookupA (l.map (fun kv => if kv.1 = k then (k, v) else kv)) k = some v := by
  induction l with
  | nil => simp [lookupA] at h
  | cons kv rest ih =>
    simp only [List.map_cons]
    by_cases hk : kv.1 = k
    · have he : (if kv.1 = k then (k, v) else kv) = (k, v) := if_pos hk
      rw [he]
      simp [lookupA]
    · have he : (if kv.1 = k then (k, v) else kv) = kv := if_neg hk
      rw [he]
      simp only [lookupA, if_neg hk] at h ⊢
      exact ih h

theorem lookupA_setA_self {β : Type} (l : List (List Char × β)) (k : List Char) (v : β) :
    lookupA (setA l k v) k = some v := by
  unfold setA
  by_cases h : (lookupA l k).isSome = true
  · rw [if_pos h]; exact lookupA_map_set l k v h
  · rw [if_neg h]
    have hn : lookupA l k = none := by
      cases hx : lookupA l k
      · rfl
      · rw [hx] at h; simp at h
    exact lookupA_append_one l k v hn

/-- Duplicate-id registration is refused up front (line 262). -/
theorem sched_noop_of_isSome (s : Reg) (p : List Char) (l : Nat) (w : Int) (o : Nat)
    (rc : Option Recur) (now : Int)
    (h : (lookupA s.timerHandles (schedId p l w o)).isSome = true) :
    scheduleOneReminder s p l w o rc now = s := by
  unfold scheduleOneReminder
  simp only [h, if_true]

/-- Out-of-range delays leave the registry untouched (lines 264-272). -/
theorem sched_reject (s : Reg) (p : List Char) (l : Nat) (w : Int) (o : Nat)
    (rc : Option Recur) (now : Int)
    (h : w - now ≤ 0 ∨ MAX_TIMEOUT_MS < w - now) :
    scheduleOneReminder s p l w o rc now = s := by
  simp only [scheduleOneReminder]
  split
  · rfl
  · split
    · rfl
    · split
      · rfl
      · rename_i h1 h2 h3
        exfalso
        rcases h with hc | hc
        · exact h2 hc
        · exact h3 hc

/-- In-range registration of a fresh id: both indices are extended and
one platform timer is created (lines 274-312). -/
theorem sched_insert (s : Reg) (p : List Char) (l : Nat) (w : Int) (o : Nat)
    (rc : Option Recur) (now : Int)
    (habs : lookupA s.timerHandles (schedId p l w o) = none)
    (h1 : 0 < w - now) (h2 : w - now ≤ MAX_TIMEOUT_MS) :
    scheduleOneReminder s p l w o rc now =
      { timerHandles := setA s.timerHandles (schedId p l w o) s.nextHandle
        fileTimers :=
          match lookupA s.fileTimers p with
          | none => s.fileTimers ++ [(p, [schedId p l w o])]
          | some ids => setA s.fileTimers p
              (if schedId p l w o ∈ ids then ids else ids ++ [schedId p l w o])
        nextHandle := s.nextHandle + 1 } := by
  simp only [scheduleOneReminder, habs, Option.isSome_none, Bool.false_eq_true, if_false]
  rw [if_neg (by omega), if_neg (by omega)]

theorem addUntil_gt (step now next : Int) (h : 0 < step) : now < addUntil step now next := by
  obtain ⟨k, h1, h2, _⟩ := addUntil_spec step now next h
  rw [h1]; exact h2

/-! ### Claims C3, C7, C9, C1 -/

/-- C3: for a recurring occurrence whose base instant `when` is not
after `now`, the effective scheduled instant equals `when` advanced by
a whole positive multiple of `(every, unit)` and is strictly after
`now` (`advanceToFuture`, lines 634-646); and the fired successor is
obtained by repeatedly adding `(every, unit)` to the fired timer's
target instant — the loop of lines 302-304 starts from `when`, not
from the fire-time `now` — until it is strictly after `now` (witnessed
by the minimality disjunct: either one step was taken, or the previous
multiple was still not after `now`). -/
theorem claim_C3 (whenMs now : Int) (r : Recur) (hev : 1 ≤ r.every) (hpast : whenMs ≤ now) :
    (∃ k : Nat, 1 ≤ k ∧
        advanceToFuture whenMs r now = some (whenMs + (k * stepMsN r : Nat)) ∧
        now < whenMs + (k * stepMsN r : Nat))
    ∧ (∃ k : Nat, 1 ≤ k ∧
        fireSuccessor whenMs r now = whenMs + (k * stepMsN r : Nat) ∧
        now < whenMs + (k * stepMsN r : Nat) ∧
        (k = 1 ∨ whenMs + ((k - 1) * stepMsN r : Nat) ≤ now)) := by
  refine ⟨advanceToFuture_of_past whenMs now r hev hpast, ?_⟩
  have hs : (0 : Int) < (stepMsN r : Nat) := stepMsN_posI r hev
  obtain ⟨k, h1, h2, h3⟩ := addUntil_spec (stepMsN r) now (whenMs + (stepMsN r : Nat)) hs
  refine ⟨k + 1, by omega, ?_, ?_, ?_⟩
  · unfold fireSuccessor
    rw [h1]; push_cast; ring
  · have hcast : (((k + 1) * stepMsN r : Nat) : Int)
        = (stepMsN r : Nat) + (k : Int) * (stepMsN r : Nat) := by
      push_cast; ring
    rw [hcast]
    linarith [h2]
  · rcases h3 with h0 | hle
    · left; omega
    · right
      simp only [Nat.add_sub_cancel]
      cases k with
      | zero => simpa using hpast
      | succ k2 =>
        have hc2 : (((k2 + 1) * stepMsN r : Nat) : Int)
            = (stepMsN r : Nat) + (k2 : Int) * (stepMsN r : Nat) := by
          push_cast; ring
        rw [hc2]
        have hle2 : whenMs + (stepMsN r : Nat) + (((k2 + 1 - 1 : Nat) : Nat) : Int) * (stepMsN r : Nat) ≤ now := hle
        simp only [Nat.add_sub_cancel] at hle2
        linarith [hle2]

/-- C3 witness: `when = 0`, `now = 150000` (2.5 minutes later), repeat
every 1 minute: the effective instant is minute 3 = 180000 ms. -/
theorem claim_C3_witness :
    ((∃ k : Nat, 1 ≤ k ∧
        advanceToFuture 0 ⟨1, RUnit.minutes⟩ 150000
          = some ((0 : Int) + (k * stepMsN ⟨1, RUnit.minutes⟩ : Nat)) ∧
        (150000 : Int) < 0 + (k * stepMsN ⟨1, RUnit.minutes⟩ : Nat))
     ∧ (∃ k : Nat, 1 ≤ k ∧
        fireSuccessor 0 ⟨1, RUnit.minutes⟩ 150000
          = (0 : Int) + (k * stepMsN ⟨1, RUnit.minutes⟩ : Nat) ∧
        (150000 : Int) < 0 + (k * stepMsN ⟨1, RUnit.minutes⟩ : Nat) ∧
        (k = 1 ∨ (0 : Int) + ((k - 1) * stepMsN ⟨1, RUnit.minutes⟩ : Nat) ≤ 150000)))
    ∧ advanceToFuture 0 ⟨1, RUnit.minutes⟩ 150000 = some 180000 :=
  ⟨claim_C3 0 150000 ⟨1, RUnit.minutes⟩ (by decide) (by decide), by decide⟩

/-- C7: registering an id already present among live timers is a no-op
(line 262 returns before any `setTimeout`), and registering the same
composite key twice leaves exactly the state of the first call. -/
theorem claim_C7 :
    (∀ (s : Reg) (path : List Char) (line : Nat) (whenMs : Int) (off : Nat)
        (recur : Option Recur) (now : Int),
      (lookupA s.timerHandles (schedId path line whenMs off)).isSome = true →
      scheduleOneReminder s path line whenMs off recur now = s)
    ∧ (∀ (s : Reg) (path : List Char) (line : Nat) (whenMs : Int) (off : Nat)
        (recur : Option Recur) (now : Int),
      scheduleOneReminder (scheduleOneReminder s path line whenMs off recur now)
          path line whenMs off recur now
        = scheduleOneReminder s path line whenMs off recur now) := by
  constructor
  · intro s p l w o rc now h
    exact sched_noop_of_isSome s p l w o rc now h
  · intro s p l w o rc now
    by_cases habs : (lookupA s.timerHandles (schedId p l w o)).isSome = true
    · have h := sched_noop_of_isSome s p l w o rc now habs
      rw [h]; exact h
    · have habs2 : lookupA s.timerHandles (schedId p l w o) = none := by
        cases hx : lookupA s.timerHandles (schedId p l w o)
        · rfl
        · rw [hx] at habs; simp at habs
      by_cases hrange : w - now ≤ 0 ∨ MAX_TIMEOUT_MS < w - now
      · have h := sched_reject s p l w o rc now hrange
        rw [h]; exact h
      · push_neg at hrange
        have hins := sched_insert s p l w o rc now habs2 (by omega) hrange.2
        have hmem : (lookupA (scheduleOneReminder s p l w o rc now).timerHandles
            (schedId p l w o)).isSome = true := by
          rw [hins]
          simp only []
          rw [lookupA_setA_self]
          rfl
        exact sched_noop_of_isSome _ p l w o rc now hmem

/-- C7 witness: scheduling the same key twice from the empty registry
equals scheduling it once, and the single resulting state holds one
timer. -/
theorem claim_C7_witness :
    scheduleOneReminder
        (scheduleOneReminder Reg.empty (("a.md").toList) 0 90000 0 none 0)
        (("a.md").toList) 0 90000 0 none 0
      = scheduleOneReminder Reg.empty (("a.md").toList) 0 90000 0 none 0 :=
  claim_C7.2 Reg.empty (("a.md").toList) 0 90000 0 none 0

/-- C9: with a fresh id, registration is rejected — registry unchanged,
no platform timer created — exactly when the delay `targetInstant − now`
is `≤ 0` or exceeds `MAX_TIMEOUT_MS = 0x7fffffff`; inside the range the
id is registered with a freshly created platform timer. -/
theorem claim_C9 (s : Reg) (path : List Char) (line : Nat) (whenMs : Int) (off : Nat)
    (recur : Option Recur) (now : Int)
    (habs : lookupA s.timerHandles (schedId path line whenMs off) = none) :
    (scheduleOneReminder s path line whenMs off recur now = s
      ↔ (whenMs - now ≤ 0 ∨ MAX_TIMEOUT_MS < whenMs - now))
    ∧ (0 < whenMs - now → whenMs - now ≤ MAX_TIMEOUT_MS →
        lookupA (scheduleOneReminder s path line whenMs off recur now).timerHandles
            (schedId path line whenMs off) = some s.nextHandle
        ∧ (scheduleOneReminder s path line whenMs off recur now).nextHandle
            = s.nextHandle + 1) := by
  constructor
  · constructor
    · intro heq
      by_contra hc
      push_neg at hc
      have hins := sched_insert s path line whenMs off recur now habs (by omega) hc.2
      have hnh : (scheduleOneReminder s path line whenMs off recur now).nextHandle
          = s.nextHandle + 1 := by rw [hins]
      rw [heq] at hnh
      omega
    · exact sched_reject s path line whenMs off recur now
  · intro h1 h2
    have hins := sched_insert s path line whenMs off recur now habs h1 h2
    rw [hins]
    exact ⟨lookupA_setA_self _ _ _, rfl⟩

/-- C9 witness: from the empty registry, a past instant is rejected, a
too-far instant is rejected, and an in-range instant is registered. -/
theorem claim_C9_witness :
    (scheduleOneReminder Reg.empty (("w.md").toList) 2 1000 0 none 5000 = Reg.empty
      ↔ ((1000 : Int) - 5000 ≤ 0 ∨ MAX_TIMEOUT_MS < (1000 : Int) - 5000))
    ∧ ((0 : Int) < 1000 - 5000 → (1000 : Int) - 5000 ≤ MAX_TIMEOUT_MS →
        lookupA (scheduleOneReminder Reg.empty (("w.md").toList) 2 1000 0 none 5000).timerHandles
            (schedId (("w.md").toList) 2 1000 0) = some Reg.empty.nextHandle
        ∧ (scheduleOneReminder Reg.empty (("w.md").toList) 2 1000 0 none 5000).nextHandle
            = Reg.empty.nextHandle + 1) :=
  claim_C9 Reg.empty (("w.md").toList) 2 1000 0 none 5000 (by decide)

/-! ### Claim C1 -/

/-- C1 (amended): the successor of a fired recurring timer is
registered only when the process is still an authorized sender at fire
time — `if (recur && this.isSender)` on line 301 gates the chaining
exactly like the send: with `isSender = false` the fire callback only
removes the fired id, and with `isSender = true` and a recurring
occurrence whose successor delay is within the platform bound, the
successor timer for the next future instant is present afterwards. -/
theorem claim_C1 (s : Reg) (path : List Char) (line : Nat) (whenMs : Int) (off : Nat)
    (rc : Option Recur) (now : Int) :
    (fireTimer s path line whenMs off rc false now = removeTimer s path line whenMs off)
    ∧ (∀ r : Recur, rc = some r → 1 ≤ r.every →
        fireSuccessor whenMs r now - now ≤ MAX_TIMEOUT_MS →
        (lookupA (fireTimer s path line whenMs off rc true now).timerHandles
          (schedId path line (fireSuccessor whenMs r now) off)).isSome = true) := by
  constructor
  · cases rc <;> rfl
  · intro r hr hev hmax
    subst hr
    show (lookupA (scheduleOneReminder (removeTimer s path line whenMs off) path line
        (fireSuccessor whenMs r now) off (some r) now).timerHandles
        (schedId path line (fireSuccessor whenMs r now) off)).isSome = true
    set s1 := removeTimer s path line whenMs off
    by_cases hdup : (lookupA s1.timerHandles
        (schedId path line (fireSuccessor whenMs r now) off)).isSome = true
    · rw [sched_noop_of_isSome s1 path line (fireSuccessor whenMs r now) off (some r) now hdup]
      exact hdup
    · have habs : lookupA s1.timerHandles (schedId path line (fireSuccessor whenMs r now) off)
          = none := by
        cases hx : lookupA s1.timerHandles (schedId path line (fireSuccessor whenMs r now) off)
        · rfl
        · rw [hx] at hdup; simp at hdup
      have hfut : now < fireSuccessor whenMs r now :=
        addUntil_gt (stepMsN r) now (whenMs + (stepMsN r : Nat)) (stepMsN_posI r hev)
      have hins := sched_insert s1 path line (fireSuccessor whenMs r now) off (some r) now
        habs (by omega) hmax
      rw [hins]
      simp only []
      rw [lookupA_setA_self]
      rfl

/-- Concrete recurring timer scheduled at `when = 5000` and fired at
`now = 5000` while the instance was not an authorized sender. -/
def c1State : Reg :=
  scheduleOneReminder Reg.empty (("b.md").toList) 0 5000 0 (some ⟨1, RUnit.minutes⟩) 0

/-- C1 counterexample: a recurring timer is live, fires while the
sender-authorization flag is `false`, and afterwards the registry is
completely empty — no successor timer was registered, contradicting
the claim that chaining happens regardless of authorization. -/
theorem claim_C1_cex :
    c1State.timerHandles ≠ []
    ∧ (fireTimer c1State (("b.md").toList) 0 5000 0 (some ⟨1, RUnit.minutes⟩) false
        5000).timerHandles = []
    ∧ (fireTimer c1State (("b.md").toList) 0 5000 0 (some ⟨1, RUnit.minutes⟩) false
        5000).fileTimers = [] := by
  refine ⟨?_, ?_, ?_⟩ <;> decide

/-- C1 witness: the same fired timer with the flag still `true` does
get its successor (at 65000 ms, one minute after the fired instant)
registered. -/
theorem claim_C1_witness :
    (lookupA (fireTimer c1State (("b.md").toList) 0 5000 0 (some ⟨1, RUnit.minutes⟩) true
        5000).timerHandles
      (schedId (("b.md").toList) 0
        (fireSuccessor 5000 ⟨1, RUnit.minutes⟩ 5000) 0)).isSome = true :=
  (claim_C1 c1State (("b.md").toList) 0 5000 0 (some ⟨1, RUnit.minutes⟩) 5000).2
    ⟨1, RUnit.minutes⟩ rfl (by decide)
    (by
      show addUntil ((stepMsN ⟨1, RUnit.minutes⟩ : Nat) : Int) 5000
          (5000 + (stepMsN ⟨1, RUnit.minutes⟩ : Nat)) - 5000 ≤ MAX_TIMEOUT_MS
      rw [addUntil]
      norm_num [stepMsN, unitMsN, MAX_TIMEOUT_MS])

/-! ### Structure of timer ids

The numeric tokens of an id contain no `#`, so the three `#`-separated
tokens at the end of an id determine its decomposition: two ids built
from different document paths are distinct strings. -/

theorem digitCh_ne_hash (d : Nat) : ¬ digitCh d = '#' := by
  unfold digitCh
  split <;> decide

theorem natCharsGo_hashfree (f n : Nat) : ∀ c ∈ natCharsGo f n, ¬ c = '#' := by
  induction f generalizing n with
  | zero => intro c hc; simp [natCharsGo] at hc
  | succ f ih =>
    intro c hc
    by_cases h10 : n < 10
    · simp only [natCharsGo, if_pos h10, List.mem_singleton] at hc
      rw [hc]; exact digitCh_ne_hash n
    · simp only [natCharsGo, if_neg h10, List.mem_append, List.mem_singleton] at hc
      rcases hc with hc | hc
      · exact ih (n / 10) c hc
      · rw [hc]; exact digitCh_ne_hash (n % 10)

theorem natChars_hashfree (n : Nat) : ∀ c ∈ natChars n, ¬ c = '#' :=
  natCharsGo_hashfree (n + 1) n

theorem intChars_hashfree (i : Int) : ∀ c ∈ intChars i, ¬ c = '#' := by
  intro c hc
  unfold intChars at hc
  by_cases hneg : i < 0
  · rw [if_pos hneg] at hc
    rcases List.mem_cons.mp hc with hc | hc
    · rw [hc]; decide
    · exact natChars_hashfree _ c hc
  · rw [if_neg hneg] at hc
    exact natChars_hashfree _ c hc

theorem tokenSplit (t1 : List Char) : ∀ (t2 r1 r2 : List Char),
    (∀ c ∈ t1, ¬ c = '#') → (∀ c ∈ t2, ¬ c = '#') →
    t1 ++ '#' :: r1 = t2 ++ '#' :: r2 → t1 = t2 ∧ r1 = r2 := by
  induction t1 with
  | nil =>
    intro t2 r1 r2 h1 h2 heq
    cases t2 with
    | nil => simpa using heq
    | cons c t2' =>
      exfalso
      simp only [List.nil_append, List.cons_append, List.cons.injEq] at heq
      exact h2 c (List.mem_cons_self c t2') heq.1.symm
  | cons c t1' ih =>
    intro t2 r1 r2 h1 h2 heq
    cases t2 with
    | nil =>
      exfalso
      simp only [List.cons_append, List.nil_append, List.cons.injEq] at heq
      exact h1 c (List.mem_cons_self c t1') heq.1
    | cons c2 t2' =>
      simp only [List.cons_append, List.cons.injEq] at heq
      have ht := ih t2' r1 r2 (fun x hx => h1 x (List.mem_cons_of_mem c hx))
        (fun x hx => h2 x (List.mem_cons_of_mem c2 hx)) heq.2
      exact ⟨by rw [heq.1, ht.1], ht.2⟩

theorem schedId_reverse (p : List Char) (l : Nat) (w : Int) (o : Nat) :
    (schedId p l w o).reverse
      = (natChars o).reverse ++ '#' :: ((intChars (unixOf w)).reverse
          ++ '#' :: ((natChars l).reverse ++ '#' :: p.reverse)) := by
  simp [schedId, List.reverse_append, List.append_assoc]

theorem schedId_path_inj (p p' : List Char) (l l' : Nat) (w w' : Int) (o o' : Nat)
    (h : schedId p l w o = schedId p' l' w' o') : p = p' := by
  have h2 := congrArg List.reverse h
  rw [schedId_reverse, schedId_reverse] at h2
  have hfo : ∀ c ∈ (natChars o).reverse, ¬ c = '#' := by
    intro c hc; exact natChars_hashfree o c (List.mem_reverse.mp hc)
  have hfo' : ∀ c ∈ (natChars o').reverse, ¬ c = '#' := by
    intro c hc; exact natChars_hashfree o' c (List.mem_reverse.mp hc)
  obtain ⟨-, h3⟩ := tokenSplit _ _ _ _ hfo hfo' h2
  have hfu : ∀ c ∈ (intChars (unixOf w)).reverse, ¬ c = '#' := by
    intro c hc; exact intChars_hashfree _ c (List.mem_reverse.mp hc)
  have hfu' : ∀ c ∈ (intChars (unixOf w')).reverse, ¬ c = '#' := by
    intro c hc; exact intChars_hashfree _ c (List.mem_reverse.mp hc)
  obtain ⟨-, h4⟩ := tokenSplit _ _ _ _ hfu hfu' h3
  have hfl : ∀ c ∈ (natChars l).reverse, ¬ c = '#' := by
    intro c hc; exact natChars_hashfree l c (List.mem_reverse.mp hc)
  have hfl' : ∀ c ∈ (natChars l').reverse, ¬ c = '#' := by
    intro c hc; exact natChars_hashfree l' c (List.mem_reverse.mp hc)
  obtain ⟨-, h5⟩ := tokenSplit _ _ _ _ hfl hfl' h4
  exact List.reverse_injective h5

/-! ### More association-list lemmas -/

theorem lookupA_isSome_iff_mem {β : Type} (l : List (List Char × β)) (k : List Char) :
    (lookupA l k).isSome = true ↔ ∃ v, (k, v) ∈ l := by
  induction l with
  | nil => simp [lookupA]
  | cons kv rest ih =>
    simp only [lookupA]
    by_cases hk : kv.1 = k
    · simp only [if_pos hk, Option.isSome_some, true_iff]
      exact ⟨kv.2, by rw [List.mem_cons]; left; rw [← hk]⟩
    · rw [if_neg hk, ih]
      constructor
      · rintro ⟨v, hv⟩; exact ⟨v, List.mem_cons_of_mem kv hv⟩
      · rintro ⟨v, hv⟩
        rcases List.mem_cons.mp hv with he | hm
        · exfalso; apply hk; rw [← he]
        · exact ⟨v, hm⟩

theorem lookupA_none_iff {β : Type} (l : List (List Char × β)) (k : List Char) :
    lookupA l k = none ↔ ¬ ∃ v, (k, v) ∈ l := by
  rw [← lookupA_isSome_iff_mem]
  cases lookupA l k <;> simp

theorem setA_of_none {β : Type} (l : List (List Char × β)) (k : List Char) (v : β)
    (h : lookupA l k = none) : setA l k v = l ++ [(k, v)] := by
  unfold setA
  rw [if_neg]
  rw [h]
  simp

theorem delA_cons_self {β : Type} (kv : List Char × β) (rest : List (List Char × β))
    (k : List Char) (hk : kv.1 = k) : delA (kv :: rest) k = delA rest k := by
  simp [delA, List.filter_cons, hk]

theorem delA_cons_ne {β : Type} (kv : List Char × β) (rest : List (List Char × β))
    (k : List Char) (hk : ¬ kv.1 = k) : delA (kv :: rest) k = kv :: delA rest k := by
  simp [delA, List.filter_cons, hk]

theorem lookupA_delA_self {β : Type} (l : List (List Char × β)) (k : List Char) :
    lookupA (delA l k) k = none := by
  induction l with
  | nil => simp [delA, lookupA]
  | cons kv rest ih =>
    by_cases hk : kv.1 = k
    · rw [delA_cons_self kv rest k hk]; exact ih
    · rw [delA_cons_ne kv rest k hk]
      simp only [lookupA, if_neg hk]
      exact ih

theorem lookupA_delA_ne {β : Type} (l : List (List Char × β)) (k k' : List Char)
    (hne : ¬ k = k') : lookupA (delA l k) k' = lookupA l k' := by
  induction l with
  | nil => simp [delA, lookupA]
  | cons kv rest ih =>
    by_cases hk : kv.1 = k
    · rw [delA_cons_self kv rest k hk, ih]
      have hk' : ¬ kv.1 = k' := by rw [hk]; exact hne
      simp [lookupA, if_neg hk']
    · rw [delA_cons_ne kv rest k hk]
      simp only [lookupA]
      by_cases hk2 : kv.1 = k'
      · rw [if_pos hk2, if_pos hk2]
      · rw [if_neg hk2, if_neg hk2]
        exact ih

theorem lookupA_append_ne {β : Type} (l : List (List Char × β)) (k k' : List Char) (v : β)
    (hne : ¬ k = k') : lookupA (l ++ [(k, v)]) k' = lookupA l k' := by
  induction l with
  | nil => simp [lookupA, if_neg hne]
  | cons kv rest ih =>
    simp only [List.cons_append, lookupA]
    by_cases hk : kv.1 = k'
    · rw [if_pos hk, if_pos hk]
    · rw [if_neg hk, if_neg hk]
      exact ih

theorem lookupA_map_set_ne {β : Type} (l : List (List Char × β)) (k k' : List Char) (v : β)
    (hne : ¬ k = k') :
    lookupA (l.map (fun kv => if kv.1 = k then (k, v) else kv)) k' = lookupA l k' := by
  induction l with
  | nil => simp [lookupA]
  | cons kv rest ih =>
    rw [List.map_cons]
    by_cases hk : kv.1 = k
    · rw [if_pos hk]
      simp only [lookupA, if_neg hne]
      have hk2 : ¬ kv.1 = k' := by rw [hk]; exact hne
      rw [if_neg hk2]
      exact ih
    · rw [if_neg hk]
      simp only [lookupA]
      by_cases hk2 : kv.1 = k'
      · rw [if_pos hk2, if_pos hk2]
      · rw [if_neg hk2, if_neg hk2]
        exact ih

theorem lookupA_setA_ne {β : Type} (l : List (List Char × β)) (k k' : List Char) (v : β)
    (hne : ¬ k = k') : lookupA (setA l k v) k' = lookupA l k' := by
  unfold setA
  by_cases h : (lookupA l k).isSome = true
  · rw [if_pos h]
    exact lookupA_map_set_ne l k k' v hne
  · rw [if_neg h]
    exact lookupA_append_ne l k k' v hne

/-! ### The two-index consistency invariant (claim C8) -/

theorem optNone {α : Type} (x : Option α) (h : ¬ x.isSome = true) : x = none := by
  cases x
  · rfl
  · simp at h

/-- Membership of an id in the secondary index under a given path. -/
def memSet (F : List (List Char × List (List Char))) (p id : List Char) : Prop :=
  ∃ ids, lookupA F p = some ids ∧ id ∈ ids

/-- The registry invariant: an id has an entry in the primary
`timerHandles` map iff it belongs to some document's id-set in the
secondary `fileTimers` index; and every id stored under a path was
built by `schedId` from that very path. -/
def RegInv (s : Reg) : Prop :=
  (∀ id, (∃ v, (id, v) ∈ s.timerHandles) ↔ ∃ p, memSet s.fileTimers p id)
  ∧ (∀ p ids id, lookupA s.fileTimers p = some ids → id ∈ ids →
      ∃ l w o, id = schedId p l w o)

theorem regInv_empty : RegInv Reg.empty := by
  constructor
  · intro id
    constructor
    · rintro ⟨v, hv⟩; simp [Reg.empty] at hv
    · rintro ⟨p, ids, hl, hm⟩; simp [Reg.empty, lookupA] at hl
  · intro p ids id hl hm
    simp [Reg.empty, lookupA] at hl

theorem sched_insert_fields (s : Reg) (p : List Char) (l : Nat) (w : Int) (o : Nat)
    (rc : Option Recur) (now : Int)
    (habs : lookupA s.timerHandles (schedId p l w o) = none)
    (h1 : 0 < w - now) (h2 : w - now ≤ MAX_TIMEOUT_MS) :
    (scheduleOneReminder s p l w o rc now).timerHandles
        = s.timerHandles ++ [(schedId p l w o, s.nextHandle)]
    ∧ (lookupA s.fileTimers p = none →
        (scheduleOneReminder s p l w o rc now).fileTimers
          = s.fileTimers ++ [(p, [schedId p l w o])])
    ∧ (∀ ids, lookupA s.fileTimers p = some ids →
        (scheduleOneReminder s p l w o rc now).fileTimers
          = setA s.fileTimers p
              (if schedId p l w o ∈ ids then ids else ids ++ [schedId p l w o]))
    ∧ (scheduleOneReminder s p l w o rc now).nextHandle = s.nextHandle + 1 := by
  rw [sched_insert s p l w o rc now habs h1 h2]
  refine ⟨?_, ?_, ?_, rfl⟩
  · show setA s.timerHandles (schedId p l w o) s.nextHandle = _
    exact setA_of_none _ _ _ habs
  · intro hF
    show (match lookupA s.fileTimers p with
      | none => s.fileTimers ++ [(p, [schedId p l w o])]
      | some ids => setA s.fileTimers p
          (if schedId p l w o ∈ ids then ids else ids ++ [schedId p l w o])) = _
    rw [hF]
  · intro ids hF
    show (match lookupA s.fileTimers p with
      | none => s.fileTimers ++ [(p, [schedId p l w o])]
      | some ids => setA s.fileTimers p
          (if schedId p l w o ∈ ids then ids else ids ++ [schedId p l w o])) = _
    rw [hF]

theorem sched_preserves (s : Reg) (p : List Char) (l : Nat) (w : Int) (o : Nat)
    (rc : Option Recur) (now : Int) (hinv : RegInv s) :
    RegInv (scheduleOneReminder s p l w o rc now) := by
  by_cases hdup : (lookupA s.timerHandles (schedId p l w o)).isSome = true
  · rw [sched_noop_of_isSome s p l w o rc now hdup]; exact hinv
  · have habs := optNone _ hdup
    by_cases hrange : w - now ≤ 0 ∨ MAX_TIMEOUT_MS < w - now
    · rw [sched_reject s p l w o rc now hrange]; exact hinv
    · push_neg at hrange
      obtain ⟨hH, hFnone, hFsome, hN⟩ :=
        sched_insert_fields s p l w o rc now habs (by omega) hrange.2
      have hid0notin : ∀ p', ¬ memSet s.fileTimers p' (schedId p l w o) := by
        intro p' hmem
        have hs := (hinv.1 (schedId p l w o)).mpr ⟨p', hmem⟩
        rw [← lookupA_isSome_iff_mem, habs] at hs
        simp at hs
      constructor
      · intro id
        rw [hH]
        constructor
        · rintro ⟨v, hv⟩
          rcases List.mem_append.mp hv with hv | hv
          · obtain ⟨p2, ids2, hl2, hm2⟩ := (hinv.1 id).mp ⟨v, hv⟩
            cases hF : lookupA s.fileTimers p with
            | none =>
              rw [hFnone hF]
              have hne : ¬ p = p2 := by
                intro he; rw [he, hl2] at hF; cases hF
              exact ⟨p2, ids2, by rw [lookupA_append_ne _ _ _ _ hne]; exact hl2, hm2⟩
            | some ids =>
              rw [hFsome ids hF]
              by_cases hpp : p = p2
              · subst hpp
                rw [hF] at hl2
                injection hl2 with he
                subst he
                refine ⟨p, _, lookupA_setA_self _ _ _, ?_⟩
                by_cases hin : schedId p l w o ∈ ids
                · rw [if_pos hin]; exact hm2
                · rw [if_neg hin]; exact List.mem_append_left _ hm2
              · exact ⟨p2, ids2, by rw [lookupA_setA_ne _ _ _ _ hpp]; exact hl2, hm2⟩
          · have hpair := List.mem_singleton.mp hv
            have hid : id = schedId p l w o := by
              have := congrArg Prod.fst hpair; simpa using this
            subst hid
            cases hF : lookupA s.fileTimers p with
            | none =>
              rw [hFnone hF]
              exact ⟨p, [schedId p l w o], lookupA_append_one _ _ _ hF,
                List.mem_singleton_self _⟩
            | some ids =>
              rw [hFsome ids hF]
              have hnotin : ¬ schedId p l w o ∈ ids := by
                intro hin; exact hid0notin p ⟨ids, hF, hin⟩
              rw [if_neg hnotin]
              exact ⟨p, ids ++ [schedId p l w o], lookupA_setA_self _ _ _,
                List.mem_append_right _ (List.mem_singleton_self _)⟩
        · rintro ⟨p2, ids2, hl2, hm2⟩
          cases hF : lookupA s.fileTimers p with
          | none =>
            rw [hFnone hF] at hl2
            by_cases hpp : p = p2
            · subst hpp
              rw [lookupA_append_one _ _ _ hF] at hl2
              injection hl2 with he
              subst he
              have hid := List.mem_singleton.mp hm2
              subst hid
              exact ⟨s.nextHandle, List.mem_append_right _ (List.mem_singleton_self _)⟩
            · rw [lookupA_append_ne _ _ _ _ hpp] at hl2
              obtain ⟨v, hv⟩ := (hinv.1 id).mpr ⟨p2, ids2, hl2, hm2⟩
              exact ⟨v, List.mem_append_left _ hv⟩
          | some ids =>
            rw [hFsome ids hF] at hl2
            by_cases hpp : p = p2
            · subst hpp
              rw [lookupA_setA_self _ _ _] at hl2
              injection hl2 with he
              subst he
              by_cases hin : schedId p l w o ∈ ids
              · rw [if_pos hin] at hm2
                obtain ⟨v, hv⟩ := (hinv.1 id).mpr ⟨p, ids, hF, hm2⟩
                exact ⟨v, List.mem_append_left _ hv⟩
              · rw [if_neg hin] at hm2
                rcases List.mem_append.mp hm2 with hm2 | hm2
                · obtain ⟨v, hv⟩ := (hinv.1 id).mpr ⟨p, ids, hF, hm2⟩
                  exact ⟨v, List.mem_append_left _ hv⟩
                · have hid := List.mem_singleton.mp hm2
                  subst hid
                  exact ⟨s.nextHandle, List.mem_append_right _ (List.mem_singleton_self _)⟩
            · rw [lookupA_setA_ne _ _ _ _ hpp] at hl2
              obtain ⟨v, hv⟩ := (hinv.1 id).mpr ⟨p2, ids2, hl2, hm2⟩
              exact ⟨v, List.mem_append_left _ hv⟩
      · intro p2 ids2 id hl2 hm2
        cases hF : lookupA s.fileTimers p with
        | none =>
          rw [hFnone hF] at hl2
          by_cases hpp : p = p2
          · subst hpp
            rw [lookupA_append_one _ _ _ hF] at hl2
            injection hl2 with he
            subst he
            have hid := List.mem_singleton.mp hm2
            subst hid
            exact ⟨l, w, o, rfl⟩
          · rw [lookupA_append_ne _ _ _ _ hpp] at hl2
            exact hinv.2 p2 ids2 id hl2 hm2
        | some ids =>
          rw [hFsome ids hF] at hl2
          by_cases hpp : p = p2
          · subst hpp
            rw [lookupA_setA_self _ _ _] at hl2
            injection hl2 with he
            subst he
            by_cases hin : schedId p l w o ∈ ids
            · rw [if_pos hin] at hm2
              exact hinv.2 p ids id hF hm2
            · rw [if_neg hin] at hm2
              rcases List.mem_append.mp hm2 with hm2 | hm2
              · exact hinv.2 p ids id hF hm2
              · have hid := List.mem_singleton.mp hm2
                subst hid
                exact ⟨l, w, o, rfl⟩
          · rw [lookupA_setA_ne _ _ _ _ hpp] at hl2
            exact hinv.2 p2 ids2 id hl2 hm2

theorem regInv_uniq (s : Reg) (hinv : RegInv s) (id p1 p2 : List Char)
    (ids1 ids2 : List (List Char))
    (h1 : lookupA s.fileTimers p1 = some ids1) (hm1 : id ∈ ids1)
    (h2 : lookupA s.fileTimers p2 = some ids2) (hm2 : id ∈ ids2) : p1 = p2 := by
  obtain ⟨l1, w1, o1, he1⟩ := hinv.2 p1 ids1 id h1 hm1
  obtain ⟨l2, w2, o2, he2⟩ := hinv.2 p2 ids2 id h2 hm2
  exact schedId_path_inj p1 p2 l1 l2 w1 w2 o1 o2 (he1.symm.trans he2)

theorem clearFile_preserves (s : Reg) (path : List Char) (hinv : RegInv s) :
    RegInv (clearTimersForFile s path) := by
  cases hF : lookupA s.fileTimers path with
  | none =>
    have he : clearTimersForFile s path = s := by
      simp only [clearTimersForFile, hF]
    rw [he]; exact hinv
  | some ids =>
    have hH : (clearTimersForFile s path).timerHandles
        = s.timerHandles.filter (fun kv => ¬ kv.1 ∈ ids) := by
      simp only [clearTimersForFile, hF]
    have hFt : (clearTimersForFile s path).fileTimers = delA s.fileTimers path := by
      simp only [clearTimersForFile, hF]
    constructor
    · intro id
      rw [hH, hFt]
      constructor
      · rintro ⟨v, hv⟩
        simp only [List.mem_filter, decide_eq_true_eq] at hv
        obtain ⟨hvH, hnotin⟩ := hv
        obtain ⟨p2, ids2, hl2, hm2⟩ := (hinv.1 id).mp ⟨v, hvH⟩
        have hne : ¬ path = p2 := by
          intro he; subst he
          rw [hF] at hl2
          injection hl2 with he2
          subst he2
          exact hnotin hm2
        exact ⟨p2, ids2, by rw [lookupA_delA_ne _ _ _ hne]; exact hl2, hm2⟩
      · rintro ⟨p2, ids2, hl2, hm2⟩
        have hne : ¬ path = p2 := by
          intro he; subst he
          rw [lookupA_delA_self] at hl2
          cases hl2
        rw [lookupA_delA_ne _ _ _ hne] at hl2
        obtain ⟨v, hv⟩ := (hinv.1 id).mpr ⟨p2, ids2, hl2, hm2⟩
        refine ⟨v, ?_⟩
        simp only [List.mem_filter, decide_eq_true_eq]
        refine ⟨hv, ?_⟩
        intro hin
        exact hne (regInv_uniq s hinv id path p2 ids ids2 hF hin hl2 hm2)
    · intro p2 ids2 id hl2 hm2
      rw [hFt] at hl2
      have hne : ¬ path = p2 := by
        intro he; subst he
        rw [lookupA_delA_self] at hl2
        cases hl2
      rw [lookupA_delA_ne _ _ _ hne] at hl2
      exact hinv.2 p2 ids2 id hl2 hm2

theorem clearAll_preserves (s : Reg) (hinv : RegInv s) : RegInv (clearAllTimers s) := by
  constructor
  · intro id
    constructor
    · rintro ⟨v, hv⟩; simp [clearAllTimers] at hv
    · rintro ⟨p, ids, hl, hm⟩; simp [clearAllTimers, lookupA] at hl
  · intro p ids id hl hm
    simp [clearAllTimers, lookupA] at hl

theorem clearLine_preserves (s : Reg) (path : List Char) (line : Nat) (hinv : RegInv s) :
    RegInv (clearTimersForLine s path line) := by
  cases hF : lookupA s.fileTimers path with
  | none =>
    have he : clearTimersForLine s path line = s := by
      simp only [clearTimersForLine, hF]
    rw [he]; exact hinv
  | some ids =>
    have hH : (clearTimersForLine s path line).timerHandles
        = s.timerHandles.filter
            (fun kv => ¬ (kv.1 ∈ ids ∧ startsWithB kv.1 (linePrefix path line) = true)) := by
      simp only [clearTimersForLine, hF]
    have hFt : (clearTimersForLine s path line).fileTimers
        = (if ids.filter (fun id => ¬ startsWithB id (linePrefix path line) = true) = []
            then delA s.fileTimers path
            else setA s.fileTimers path
              (ids.filter (fun id => ¬ startsWithB id (linePrefix path line) = true))) := by
      simp only [clearTimersForLine, hF]
    constructor
    · intro id
      rw [hH, hFt]
      constructor
      · rintro ⟨v, hv⟩
        simp only [List.mem_filter, decide_eq_true_eq] at hv
        obtain ⟨hvH, hnot⟩ := hv
        obtain ⟨p2, ids2, hl2, hm2⟩ := (hinv.1 id).mp ⟨v, hvH⟩
        by_cases hpp : path = p2
        · subst hpp
          rw [hF] at hl2
          injection hl2 with he2
          subst he2
          have hsw : ¬ startsWithB id (linePrefix path line) = true := by
            intro hs; exact hnot ⟨hm2, hs⟩
          have hkm : id ∈ ids.filter
              (fun x => ¬ startsWithB x (linePrefix path line) = true) := by
            simp only [List.mem_filter, decide_eq_true_eq]
            exact ⟨hm2, hsw⟩
          have hkeep : ¬ ids.filter
              (fun x => ¬ startsWithB x (linePrefix path line) = true) = [] :=
            List.ne_nil_of_mem hkm
          rw [if_neg hkeep]
          exact ⟨path, _, lookupA_setA_self _ _ _, hkm⟩
        · refine ⟨p2, ids2, ?_, hm2⟩
          by_cases hkeep : ids.filter
              (fun x => ¬ startsWithB x (linePrefix path line) = true) = []
          · rw [if_pos hkeep, lookupA_delA_ne _ _ _ hpp]; exact hl2
          · rw [if_neg hkeep, lookupA_setA_ne _ _ _ _ hpp]; exact hl2
      · rintro ⟨p2, ids2, hl2, hm2⟩
        by_cases hpp : path = p2
        · subst hpp
          by_cases hkeep : ids.filter
              (fun x => ¬ startsWithB x (linePrefix path line) = true) = []
          · rw [if_pos hkeep, lookupA_delA_self] at hl2
            cases hl2
          · rw [if_neg hkeep, lookupA_setA_self] at hl2
            injection hl2 with he2
            subst he2
            simp only [List.mem_filter, decide_eq_true_eq] at hm2
            obtain ⟨v, hv⟩ := (hinv.1 id).mpr ⟨path, ids, hF, hm2.1⟩
            refine ⟨v, ?_⟩
            simp only [List.mem_filter, decide_eq_true_eq]
            exact ⟨hv, fun hc => hm2.2 hc.2⟩
        · have hl2' : lookupA s.fileTimers p2 = some ids2 := by
            by_cases hkeep : ids.filter
                (fun x => ¬ startsWithB x (linePrefix path line) = true) = []
            · rw [if_pos hkeep, lookupA_delA_ne _ _ _ hpp] at hl2; exact hl2
            · rw [if_neg hkeep, lookupA_setA_ne _ _ _ _ hpp] at hl2; exact hl2
          obtain ⟨v, hv⟩ := (hinv.1 id).mpr ⟨p2, ids2, hl2', hm2⟩
          refine ⟨v, ?_⟩
          simp only [List.mem_filter, decide_eq_true_eq]
          refine ⟨hv, ?_⟩
          rintro ⟨hin, -⟩
          exact hpp (regInv_uniq s hinv id path p2 ids ids2 hF hin hl2' hm2)
    · intro p2 ids2 id hl2 hm2
      rw [hFt] at hl2
      by_cases hpp : path = p2
      · subst hpp
        by_cases hkeep : ids.filter
            (fun x => ¬ startsWithB x (linePrefix path line) = true) = []
        · rw [if_pos hkeep, lookupA_delA_self] at hl2
          cases hl2
        · rw [if_neg hkeep, lookupA_setA_self] at hl2
          injection hl2 with he2
          subst he2
          simp only [List.mem_filter, decide_eq_true_eq] at hm2
          exact hinv.2 path ids id hF hm2.1
      · have hl2' : lookupA s.fileTimers p2 = some ids2 := by
          by_cases hkeep : ids.filter
              (fun x => ¬ startsWithB x (linePrefix path line) = true) = []
          · rw [if_pos hkeep, lookupA_delA_ne _ _ _ hpp] at hl2; exact hl2
          · rw [if_neg hkeep, lookupA_setA_ne _ _ _ _ hpp] at hl2; exact hl2
        exact hinv.2 p2 ids2 id hl2' hm2

theorem remove_preserves (s : Reg) (path : List Char) (line : Nat) (whenMs : Int)
    (off : Nat) (hinv : RegInv s) : RegInv (removeTimer s path line whenMs off) := by
  have hH : (removeTimer s path line whenMs off).timerHandles
      = delA s.timerHandles (schedId path line whenMs off) := rfl
  cases hF : lookupA s.fileTimers path with
  | none =>
    have hFt : (removeTimer s path line whenMs off).fileTimers = s.fileTimers := by
      simp only [removeTimer, hF]
    constructor
    · intro id
      rw [hH, hFt]
      constructor
      · rintro ⟨v, hv⟩
        simp only [delA, List.mem_filter, decide_eq_true_eq] at hv
        exact (hinv.1 id).mp ⟨v, hv.1⟩
      · rintro ⟨p2, ids2, hl2, hm2⟩
        obtain ⟨v, hv⟩ := (hinv.1 id).mpr ⟨p2, ids2, hl2, hm2⟩
        refine ⟨v, ?_⟩
        simp only [delA, List.mem_filter, decide_eq_true_eq]
        refine ⟨hv, ?_⟩
        intro hid
        obtain ⟨l2, w2, o2, he2⟩ := hinv.2 p2 ids2 id hl2 hm2
        have hpp := schedId_path_inj p2 path l2 line w2 whenMs o2 off (he2.symm.trans hid)
        subst hpp
        rw [hF] at hl2
        cases hl2
    · intro p2 ids2 id hl2 hm2
      rw [hFt] at hl2
      exact hinv.2 p2 ids2 id hl2 hm2
  | some ids =>
    have hFt : (removeTimer s path line whenMs off).fileTimers
        = (if ids.filter (fun x => ¬ x = schedId path line whenMs off) = []
            then delA s.fileTimers path
            else setA s.fileTimers path
              (ids.filter (fun x => ¬ x = schedId path line whenMs off))) := by
      simp only [removeTimer, hF]
    constructor
    · intro id
      rw [hH, hFt]
      constructor
      · rintro ⟨v, hv⟩
        simp only [delA, List.mem_filter, decide_eq_true_eq] at hv
        obtain ⟨hvH, hne⟩ := hv
        obtain ⟨p2, ids2, hl2, hm2⟩ := (hinv.1 id).mp ⟨v, hvH⟩
        by_cases hpp : path = p2
        · subst hpp
          rw [hF] at hl2
          injection hl2 with he2
          subst he2
          have hkm : id ∈ ids.filter (fun x => ¬ x = schedId path line whenMs off) := by
            simp only [List.mem_filter, decide_eq_true_eq]
            exact ⟨hm2, hne⟩
          have hkeep : ¬ ids.filter (fun x => ¬ x = schedId path line whenMs off) = [] :=
            List.ne_nil_of_mem hkm
          rw [if_neg hkeep]
          exact ⟨path, _, lookupA_setA_self _ _ _, hkm⟩
        · refine ⟨p2, ids2, ?_, hm2⟩
          by_cases hkeep : ids.filter (fun x => ¬ x = schedId path line whenMs off) = []
          · rw [if_pos hkeep, lookupA_delA_ne _ _ _ hpp]; exact hl2
          · rw [if_neg hkeep, lookupA_setA_ne _ _ _ _ hpp]; exact hl2
      · rintro ⟨p2, ids2, hl2, hm2⟩
        by_cases hpp : path = p2
        · subst hpp
          by_cases hkeep : ids.filter (fun x => ¬ x = schedId path line whenMs off) = []
          · rw [if_pos hkeep, lookupA_delA_self] at hl2
            cases hl2
          · rw [if_neg hkeep, lookupA_setA_self] at hl2
            injection hl2 with he2
            subst he2
            simp only [List.mem_filter, decide_eq_true_eq] at hm2
            obtain ⟨v, hv⟩ := (hinv.1 id).mpr ⟨path, ids, hF, hm2.1⟩
            refine ⟨v, ?_⟩
            simp only [delA, List.mem_filter, decide_eq_true_eq]
            exact ⟨hv, hm2.2⟩
        · have hl2' : lookupA s.fileTimers p2 = some ids2 := by
            by_cases hkeep : ids.filter (fun x => ¬ x = schedId path line whenMs off) = []
            · rw [if_pos hkeep, lookupA_delA_ne _ _ _ hpp] at hl2; exact hl2
            · rw [if_neg hkeep, lookupA_setA_ne _ _ _ _ hpp] at hl2; exact hl2
          obtain ⟨v, hv⟩ := (hinv.1 id).mpr ⟨p2, ids2, hl2', hm2⟩
          refine ⟨v, ?_⟩
          simp only [delA, List.mem_filter, decide_eq_true_eq]
          refine ⟨hv, ?_⟩
          intro hid
          obtain ⟨l2, w2, o2, he2⟩ := hinv.2 p2 ids2 id hl2' hm2
          exact hpp (schedId_path_inj path p2 line l2 whenMs w2 off o2
            (hid.symm.trans he2))
    · intro p2 ids2 id hl2 hm2
      rw [hFt] at hl2
      by_cases hpp : path = p2
      · subst hpp
        by_cases hkeep : ids.filter (fun x => ¬ x = schedId path line whenMs off) = []
        · rw [if_pos hkeep, lookupA_delA_self] at hl2
          cases hl2
        · rw [if_neg hkeep, lookupA_setA_self] at hl2
          injection hl2 with he2
          subst he2
          simp only [List.mem_filter, decide_eq_true_eq] at hm2
          exact hinv.2 path ids id hF hm2.1
      · have hl2' : lookupA s.fileTimers p2 = some ids2 := by
          by_cases hkeep : ids.filter (fun x => ¬ x = schedId path line whenMs off) = []
          · rw [if_pos hkeep, lookupA_delA_ne _ _ _ hpp] at hl2; exact hl2
          · rw [if_neg hkeep, lookupA_setA_ne _ _ _ _ hpp] at hl2; exact hl2
        exact hinv.2 p2 ids2 id hl2' hm2

theorem fire_preserves (s : Reg) (path : List Char) (line : Nat) (whenMs : Int)
    (off : Nat) (rc : Option Recur) (b : Bool) (now : Int) (hinv : RegInv s) :
    RegInv (fireTimer s path line whenMs off rc b now) := by
  have h1 := remove_preserves s path line whenMs off hinv
  cases rc with
  | none => cases b <;> exact h1
  | some r =>
    cases b with
    | false => exact h1
    | true =>
      exact sched_preserves _ path line (fireSuccessor whenMs r now) off (some r) now h1

/-- The registry operations available to the plugin: registration
(`scheduleOneReminder`), targeted-line cancel, per-document cancel,
global cancel, and timer firing (with the fire-time parameters the
closure captured). -/
inductive RegOp where
  | sched (path : List Char) (line : Nat) (whenMs : Int) (off : Nat)
      (recur : Option Recur) (now : Int)
  | clearLine (path : List Char) (line : Nat)
  | clearFile (path : List Char)
  | clearAll
  | fire (path : List Char) (line : Nat) (whenMs : Int) (off : Nat)
      (recur : Option Recur) (isSender : Bool) (now : Int)

def applyOp (s : Reg) : RegOp → Reg
  | RegOp.sched p l w o rc now => scheduleOneReminder s p l w o rc now
  | RegOp.clearLine p l => clearTimersForLine s p l
  | RegOp.clearFile p => clearTimersForFile s p
  | RegOp.clearAll => clearAllTimers s
  | RegOp.fire p l w o rc b now => fireTimer s p l w o rc b now

def runOps (s : Reg) (ops : List RegOp) : Reg := ops.foldl applyOp s

theorem applyOp_preserves (s : Reg) (op : RegOp) (hinv : RegInv s) :
    RegInv (applyOp s op) := by
  cases op with
  | sched p l w o rc now => exact sched_preserves s p l w o rc now hinv
  | clearLine p l => exact clearLine_preserves s p l hinv
  | clearFile p => exact clearFile_preserves s p hinv
  | clearAll => exact clearAll_preserves s hinv
  | fire p l w o rc b now => exact fire_preserves s p l w o rc b now hinv

theorem runOps_preserves (ops : List RegOp) (s : Reg) (hinv : RegInv s) :
    RegInv (runOps s ops) := by
  induction ops generalizing s with
  | nil => exact hinv
  | cons op rest ih =>
    exact ih (applyOp s op) (applyOp_preserves s op hinv)

/-- C8: after any sequence of schedule, cancel-for-line,
cancel-for-document, cancel-all and fire operations starting from the
empty registry, an id has an entry in the primary `timerHandles` map
iff it belongs to some document's id-set in the secondary `fileTimers`
index — each operation updates the two indices together in one
synchronous step (one `applyOp`). -/
theorem claim_C8 (ops : List RegOp) :
    ∀ id, (∃ v, (id, v) ∈ (runOps Reg.empty ops).timerHandles)
      ↔ ∃ p, memSet (runOps Reg.empty ops).fileTimers p id :=
  (runOps_preserves ops Reg.empty regInv_empty).1

/-! ### Sender gating (src/main.new.js lines 484-559)

`computeIsSender`, `parseList`, `parseIPRules`, `ipv4ToInt` and
`ipMatchesRule`, embedded over `List Char` strings.  The regular
expression shape tests of `parseIPRules` (`^\d+\.\d+\.\d+\.\d+\/\d+$`
etc.) are spelled out as digit-run matchers.  JavaScript's 32-bit `&`
comparison of equal-width bit patterns is `Nat.land` on values below
`2^32`; `(~0 >>> (32-bits)) << (32-bits)` is the mask
`(2^bits - 1) * 2^(32-bits)`. -/

def isWSC (c : Char) : Bool :=
  c = ' ' || c = '\t' || c = '\n' || c = '\r' || c = '\x0b' || c = '\x0c'

/-- JavaScript `String.prototype.trim` (ASCII whitespace model). -/
def trimWS (cs : List Char) : List Char :=
  ((cs.dropWhile isWSC).reverse.dropWhile isWSC).reverse

def splitCommaGo : List Char → List Char → List (List Char)
  | [], acc => [acc.reverse]
  | c :: rest, acc =>
    if c = ',' then acc.reverse :: splitCommaGo rest [] else splitCommaGo rest (c :: acc)

/-- JavaScript `s.split(",")` (so `"" ↦ [""]`). -/
def splitComma (cs : List Char) : List (List Char) := splitCommaGo cs []

def charVal (c : Char) : Nat := c.toNat - 48

/-- Value of a decimal digit string (JS `parseInt`/unary `+` on an
all-digits string). -/
def charsToNat (cs : List Char) : Nat := cs.foldl (fun a c => 10 * a + charVal c) 0

def toLowerList (cs : List Char) : List Char := cs.map Char.toLower

/-- `parseList` (lines 505-508). -/
def parseList (s : List Char) : List (List Char) :=
  if s = [] then [] else (splitComma s).map trimWS |>.filter (fun x => ¬ x = [])

/-- Consume one run of one-or-more digits, returning it and the rest. -/
def matchSegV (cs : List Char) : Option (List Char × List Char) :=
  let d := cs.takeWhile (fun c => c.isDigit)
  if d = [] then none else some (d, cs.dropWhile (fun c => c.isDigit))

def matchDot : List Char → Option (List Char)
  | '.' :: r => some r
  | _ => none

/-- Rest of the input after `\d+\.\d+\.\d+\.\d+`. -/
def quadRest (cs : List Char) : Option (List Char) := do
  let (_, r1) ← matchSegV cs
  let r2 ← matchDot r1
  let (_, r3) ← matchSegV r2
  let r4 ← matchDot r3
  let (_, r5) ← matchSegV r4
  let r6 ← matchDot r5
  let (_, r7) ← matchSegV r6
  pure r7

/-- `^\d+\.\d+\.\d+\.\d+$`. -/
def isQuad (cs : List Char) : Bool := quadRest cs = some []

/-- `^\d+\.\d+\.\d+\.\d+\/\d+$`. -/
def isQuadSlash (cs : List Char) : Bool :=
  match quadRest cs with
  | some ('/' :: r) => (matchSegV r).any (fun x => x.2 = [])
  | _ => false

/-- `^\d+\.$`, `^\d+\.\d+\.$`, `^\d+\.\d+\.\d+\.$` and the bare
`^\d+$`, `^\d+\.\d+$`, `^\d+\.\d+\.\d+$` shapes. -/
def dotsRest (cs : List Char) (n : Nat) : Option (List Char) :=
  match n with
  | 0 => some cs
  | m + 1 => do
    let (_, r1) ← matchSegV cs
    let r2 ← matchDot r1
    dotsRest r2 m

def isDotsEnd (cs : List Char) (n : Nat) : Bool := dotsRest cs n = some []

def isBare (cs : List Char) (n : Nat) : Bool :=
  (dotsRest cs n).any (fun r => (matchSegV r).any (fun x => x.2 = []))

/-- `ipv4ToInt` (lines 553-559): `((a<<24)>>>0) + (b<<16) + (c<<8) + d`
on four dot-separated decimal runs each in `0..255`, else `null`. -/
def ipv4ToInt (ip : List Char) : Option Nat := do
  let (d1, r1) ← matchSegV ip
  let r2 ← matchDot r1
  let (d2, r3) ← matchSegV r2
  let r4 ← matchDot r3
  let (d3, r5) ← matchSegV r4
  let r6 ← matchDot r5
  let (d4, r7) ← matchSegV r6
  if ¬ r7 = [] then none
  else
    let a := charsToNat d1
    let b := charsToNat d2
    let c := charsToNat d3
    let d := charsToNat d4
    if a > 255 ∨ b > 255 ∨ c > 255 ∨ d > 255 then none
    else some (a * 16777216 + b * 65536 + c * 256 + d)

/-- Parsed allow-list rule (the `kind` tag of the source objects). -/
inductive Rule where
  | cidr (ipInt : Nat) (mask : Nat) (bits : Nat)
  | exactQuad (ipInt : Nat) (ip : List Char)
  | pre (p : List Char)
deriving DecidableEq, Repr

/-- `(~0 >>> (32 - bits)) << (32 - bits)` as an unsigned 32-bit pattern. -/
def maskOf (bits : Nat) : Nat :=
  if bits = 0 then 0 else (2 ^ bits - 1) * 2 ^ (32 - bits)

/-- `clampInt(bitsStr, 0, 32)` on an all-digits string. -/
def clampBits (ds : List Char) : Nat := min 32 (charsToNat ds)

def classifyRule (raw : List Char) : Option Rule :=
  if isQuadSlash raw then
    let ip := raw.takeWhile (fun c => ¬ c = '/')
    let bitsStr := (raw.dropWhile (fun c => ¬ c = '/')).drop 1
    let bits := clampBits bitsStr
    match ipv4ToInt ip with
    | some ipInt => some (Rule.cidr ipInt (maskOf bits) bits)
    | none => none
  else if isQuad raw then (ipv4ToInt raw).map (fun n => Rule.exactQuad n raw)
  else if isDotsEnd raw 3 || isDotsEnd raw 2 || isDotsEnd raw 1 then some (Rule.pre raw)
  else if isBare raw 2 then some (Rule.pre (raw ++ ['.']))
  else if isBare raw 1 then some (Rule.pre (raw ++ ['.']))
  else if isBare raw 0 then some (Rule.pre (raw ++ ['.']))
  else none

/-- `parseIPRules` (lines 510-539). -/
def parseIPRules (s : List Char) : List Rule :=
  if s = [] then []
  else ((splitComma s).map trimWS |>.filter (fun x => ¬ x = [])).filterMap classifyRule

/-- `ipMatchesRule` (lines 541-551). -/
def ipMatchesRule (ip : List Char) (rule : Rule) : Bool :=
  if ip = [] then false
  else
    match rule with
    | Rule.pre p => startsWithB ip p
    | Rule.exactQuad ipInt _ =>
      match ipv4ToInt ip with
      | none => false
      | some i => i = ipInt
    | Rule.cidr ipInt mask _ =>
      match ipv4ToInt ip with
      | none => false
      | some i => Nat.land i mask = Nat.land ipInt mask

structure Settings where
  senderHostnames : List Char
  senderIPsCidrs : List Char

structure Identity where
  hostname : List Char
  ipv4 : List (List Char)

/-- `computeIsSender` (lines 484-503). -/
def computeIsSender (settings : Settings) (identity : Identity) : Bool :=
  let hostList := parseList settings.senderHostnames
  let ipRules := parseIPRules settings.senderIPsCidrs
  if hostList = [] ∧ ipRules = [] then true
  else
    let hn := toLowerList identity.hostname
    let hostMatch := hostList.any (fun h => toLowerList h = hn)
    let ipMatch := identity.ipv4.any (fun ip => ipRules.any (fun rule => ipMatchesRule ip rule))
    hostMatch || ipMatch

/-! ### Claim C4 -/

/-- C4: the sender-authorization predicate grants unconditionally when
both parsed allow-lists are empty; otherwise it grants exactly when
the local hostname case-insensitively equals some configured hostname
or some local IPv4 address matches some configured rule (exact quad,
CIDR bitmask, or literal dotted prefix).  With `senderHostnames = ""`
and `senderIPsCidrs = "10.0.0.0/24"`, address `10.0.0.42` is
authorized and `10.0.1.1` is not. -/
theorem claim_C4 :
    (∀ (st : Settings) (idn : Identity),
      parseList st.senderHostnames = [] → parseIPRules st.senderIPsCidrs = [] →
      computeIsSender st idn = true)
    ∧ (∀ (st : Settings) (idn : Identity),
      computeIsSender st idn = true ↔
        ((parseList st.senderHostnames = [] ∧ parseIPRules st.senderIPsCidrs = [])
          ∨ (∃ h ∈ parseList st.senderHostnames, toLowerList h = toLowerList idn.hostname)
          ∨ (∃ ip ∈ idn.ipv4, ∃ rule ∈ parseIPRules st.senderIPsCidrs,
              ipMatchesRule ip rule = true)))
    ∧ computeIsSender ⟨("").toList, ("10.0.0.0/24").toList⟩
        ⟨("myhost").toList, [("10.0.0.42").toList]⟩ = true
    ∧ computeIsSender ⟨("").toList, ("10.0.0.0/24").toList⟩
        ⟨("myhost").toList, [("10.0.1.1").toList]⟩ = false := by
  refine ⟨?_, ?_, by decide, by decide⟩
  · intro st idn h1 h2
    simp [computeIsSender, h1, h2]
  · intro st idn
    unfold computeIsSender
    by_cases hemp : parseList st.senderHostnames = [] ∧ parseIPRules st.senderIPsCidrs = []
    · simp only [hemp, if_pos, and_self]
      simp [hemp]
    · rw [if_neg hemp]
      simp only [Bool.or_eq_true, List.any_eq_true, decide_eq_true_eq]
      constructor
      · rintro (h | h)
        · exact Or.inr (Or.inl h)
        · exact Or.inr (Or.inr h)
      · rintro (h | h | h)
        · exact absurd h hemp
        · exact Or.inl h
        · exact Or.inr h

/-- C4 witness: with both allow-lists the empty string, every identity
is authorized. -/
theorem claim_C4_witness :
    computeIsSender ⟨("").toList, ("").toList⟩ ⟨("obsidian").toList, []⟩ = true :=
  claim_C4.1 ⟨("").toList, ("").toList⟩ ⟨("obsidian").toList, []⟩ (by decide) (by decide)

/-! ### The stamp parser `parseClockEmojiAll` (src/main.new.js lines 578-623)

The timestamp regex is
`/⏰\s*(\d{4}-\d{2}-\d{2})\s+(\d{1,2})(?::([0-5]\d))?\s*(am|pm)?\b/ig`.
It is embedded as a deterministic character scanner that reproduces the
JavaScript backtracking semantics exactly:

* the optional `(?::([0-5]\d))?` group is retried without the group
  when the rest of the pattern fails after it;
* `\d{1,2}` tries two digits, then one;
* `\s*(am|pm)?\b` resolves to: let `j2` be the position after the
  greedy run of whitespace starting at `p` (the position right after
  the last time digit); if a case-insensitive `am`/`pm` followed by a
  word boundary sits at `j2`, the match ends after it; otherwise the
  `\b` backtracking over the whitespace ends the match at `j2` when a
  word character follows (`\b` between whitespace and a word char), or
  at `p` when not (boundary after the final digit; a middle position
  has whitespace on both sides and is never a boundary).

`\s` and `\b` use their ASCII meanings (`[ \t\n\r\v\f]` and
`[A-Za-z0-9_]` word characters); the lines parsed here contain no
other JavaScript whitespace. -/

def isWordC (c : Char) : Bool := c.isAlphanum || c = '_'

def countWS : List Char → Nat
  | [] => 0
  | c :: r => if isWSC c then countWS r + 1 else 0

/-- Position after the greedy `\s*` run starting at `i`. -/
def wsEnd (cs : List Char) (i : Nat) : Nat := i + countWS (cs.drop i)

def digitAt (cs : List Char) (i : Nat) : Option Nat :=
  match cs[i]? with
  | some c => if c.isDigit then some (charVal c) else none
  | none => none

def digits2At (cs : List Char) (i : Nat) : Option Nat := do
  let a ← digitAt cs i
  let b ← digitAt cs (i + 1)
  pure (10 * a + b)

def digits4At (cs : List Char) (i : Nat) : Option Nat := do
  let a ← digitAt cs i
  let b ← digitAt cs (i + 1)
  let c ← digitAt cs (i + 2)
  let d ← digitAt cs (i + 3)
  pure (1000 * a + 100 * b + 10 * c + d)

def isCharAt (cs : List Char) (i : Nat) (c : Char) : Bool := cs[i]? = some c

/-- `\b` at a position whose previous character is a word character:
true iff no word character follows. -/
def wordBoundaryAfter (cs : List Char) (k : Nat) : Bool :=
  match cs[k]? with
  | some c => ¬ isWordC c = true
  | none => true

/-- The `\s*(am|pm)?\b` tail; `p` is the position right after the last
time digit.  Returns the match end and the am/pm flag (`true` = pm). -/
def tailEnd (cs : List Char) (p : Nat) : Option (Nat × Option Bool) :=
  let j2 := wsEnd cs p
  let apm : Option Bool :=
    match cs[j2]?, cs[j2 + 1]? with
    | some c1, some c2 =>
      if (c1 = 'a' || c1 = 'A') && (c2 = 'm' || c2 = 'M')
          && wordBoundaryAfter cs (j2 + 2) then some false
      else if (c1 = 'p' || c1 = 'P') && (c2 = 'm' || c2 = 'M')
          && wordBoundaryAfter cs (j2 + 2) then some true
      else none
    | _, _ => none
  match apm with
  | some pm => some (j2 + 2, some pm)
  | none =>
    if p < j2 then
      match cs[j2]? with
      | some c => if isWordC c then some (j2, none) else some (p, none)
      | none => some (p, none)
    else
      match cs[p]? with
      | some c => if isWordC c then none else some (p, none)
      | none => some (p, none)

/-- `(?::([0-5]\d))?\s*(am|pm)?\b` from position `p` (after the hour
digits): try the minutes group, and on failure of the rest retry
without it. -/
def hourRest (cs : List Char) (p : Nat) : Option (Nat × Nat × Option Bool) :=
  let withMin : Option (Nat × Nat × Option Bool) :=
    match cs[p]?, cs[p + 1]?, cs[p + 2]? with
    | some c0, some c1, some c2 =>
      if c0 = ':' && ('0' ≤ c1 && c1 ≤ '5') && c2.isDigit then
        match tailEnd cs (p + 3) with
        | some (e, ap) => some (e, 10 * charVal c1 + charVal c2, ap)
        | none => none
      else none
    | _, _, _ => none
  match withMin with
  | some v => some v
  | none => (tailEnd cs p).map (fun ea => (ea.1, 0, ea.2))

/-- `(\d{1,2})` then the rest: two digits first, then one. -/
def hourParse (cs : List Char) (q : Nat) : Option (Nat × Nat × Nat × Option Bool) :=
  match digitAt cs q with
  | none => none
  | some d1 =>
    match digitAt cs (q + 1) with
    | some d2 =>
      (match hourRest cs (q + 2) with
       | some (e, mm, ap) => some (e, 10 * d1 + d2, mm, ap)
       | none => (hourRest cs (q + 1)).map (fun x => (x.1, d1, x.2.1, x.2.2)))
    | none => (hourRest cs (q + 1)).map (fun x => (x.1, d1, x.2.1, x.2.2))

/-- One raw regex match: end position, date digits, raw hour, minutes
(0 when the group is absent) and the am/pm flag. -/
structure RawStamp where
  endPos : Nat
  y : Nat
  mo : Nat
  d : Nat
  hh : Nat
  mm : Nat
  ap : Option Bool
deriving DecidableEq, Repr

def matchStampAt (cs : List Char) (i : Nat) : Option RawStamp :=
  if ¬ cs[i]? = some '⏰' then none
  else
    let j := wsEnd cs (i + 1)
    match digits4At cs j with
    | none => none
    | some y =>
      if ¬ isCharAt cs (j + 4) '-' then none
      else
        match digits2At cs (j + 5) with
        | none => none
        | some mo =>
          if ¬ isCharAt cs (j + 7) '-' then none
          else
            match digits2At cs (j + 8) with
            | none => none
            | some d =>
              let q := wsEnd cs (j + 10)
              if ¬ j + 10 < q then none
              else
                match hourParse cs q with
                | none => none
                | some (e, hh, mm, ap) => some ⟨e, y, mo, d, hh, mm, ap⟩

/-- `matchAll` scanning: try each position left to right; after a
match, resume at its end (our matches are never empty, the `max` is a
fuel-measure guard only). -/
def scanGo : Nat → List Char → Nat → List (Nat × RawStamp)
  | 0, _, _ => []
  | f + 1, cs, i =>
    if i < cs.length then
      match matchStampAt cs i with
      | some st => (i, st) :: scanGo f cs (max st.endPos (i + 1))
      | none => scanGo f cs (i + 1)
    else []

def scanStamps (cs : List Char) : List (Nat × RawStamp) := scanGo (cs.length + 1) cs 0

/-! ### Recurrence suffix and occurrence construction -/

/-- Case-insensitive literal match (pattern given lowercase). -/
def ciMatch : List Char → List Char → Bool
  | _, [] => true
  | [], _ :: _ => false
  | c :: r, pc :: pr => Char.toLower c = pc && ciMatch r pr

/-- `normalizeUnit` (lines 625-631): the regex families
`m|min|mins|minute|minutes`, `h|hr|hrs|hour|hours`, `d|day|days`,
`w|week|weeks`, else `null`. -/
def normalizeUnit (tok : List Char) : Option RUnit :=
  if tok = ("m").toList ∨ tok = ("min").toList ∨ tok = ("mins").toList
      ∨ tok = ("minute").toList ∨ tok = ("minutes").toList then some RUnit.minutes
  else if tok = ("h").toList ∨ tok = ("hr").toList ∨ tok = ("hrs").toList
      ∨ tok = ("hour").toList ∨ tok = ("hours").toList then some RUnit.hours
  else if tok = ("d").toList ∨ tok = ("day").toList ∨ tok = ("days").toList then
    some RUnit.days
  else if tok = ("w").toList ∨ tok = ("week").toList ∨ tok = ("weeks").toList then
    some RUnit.weeks
  else none

/-- The unit alternation
`minutes?|minute|min|m|hours?|hour|hr|h|days?|day|d|weeks?|week|w`
with its trailing `\b`, in JavaScript first-alternative-wins order
(the greedy `s?` tried first). -/
def unitTokens : List (List Char) :=
  [("minutes").toList, ("minute").toList, ("min").toList, ("m").toList,
   ("hours").toList, ("hour").toList, ("hr").toList, ("h").toList,
   ("days").toList, ("day").toList, ("d").toList,
   ("weeks").toList, ("week").toList, ("w").toList]

def findUnitTok (tail : List Char) (i : Nat) : List (List Char) → Option (List Char × Nat)
  | [] => none
  | t :: rest =>
    if ciMatch (tail.drop i) t && wordBoundaryAfter tail (i + t.length) then
      some (t, i + t.length)
    else findUnitTok tail i rest

/-- The recurrence-suffix regex
`/^\s*every\s+(\d+)\s*(minutes?|…|w)\b/i` applied to the tail after a
stamp (lines 601-613): returns the attached `Recur` (with
`Math.max(1, parseInt(...) || 0)` clamping) and the length of
`rm[0]`, i.e. how far the consumed span extends. -/
def recurMatch (tail : List Char) : Option Recur × Nat :=
  let i1 := wsEnd tail 0
  if ¬ ciMatch (tail.drop i1) (("every").toList) then (none, 0)
  else
    let i2 := i1 + 5
    let i3 := wsEnd tail i2
    if ¬ i2 < i3 then (none, 0)
    else
      let ds := (tail.drop i3).takeWhile (fun c => c.isDigit)
      if ds = [] then (none, 0)
      else
        let i4 := i3 + ds.length
        let i5 := wsEnd tail i4
        match findUnitTok tail i5 unitTokens with
        | none => (none, 0)
        | some (tok, i6) =>
          let every := max 1 (charsToNat ds)
          match normalizeUnit tok with
          | some u => if 0 < every then (some ⟨every, u⟩, i6) else (none, 0)
          | none => (none, 0)

/-- Resolved date-time (`moment` value, local calendar fields). -/
structure DT where
  y : Nat
  mo : Nat
  d : Nat
  hh : Nat
  mm : Nat
deriving DecidableEq, Repr

/-- 12-hour resolution (line 594): `pm ∧ hh < 12 → +12`;
`am ∧ hh = 12 → 0`. -/
def resolve12 (hh : Nat) (ap : Option Bool) : Nat :=
  match ap with
  | some true => if hh < 12 then hh + 12 else hh
  | some false => if hh = 12 then 0 else hh
  | none => hh

def isLeapB (y : Nat) : Bool := (y % 4 = 0 && ¬ y % 100 = 0) || y % 400 = 0

def daysInMonth (y mo : Nat) : Nat :=
  if mo = 2 then (if isLeapB y then 29 else 28)
  else if mo = 4 ∨ mo = 6 ∨ mo = 9 ∨ mo = 11 then 30
  else 31

/-- Validity of the strict `moment(..., "YYYY-MM-DD HH:mm", true)`
construction, given that the parser already guarantees 4/2/2-digit
fields and `hh ≤ 23`, `mm ≤ 59`: calendar-date validity. -/
def validDate (y mo d : Nat) : Bool :=
  1 ≤ mo && mo ≤ 12 && 1 ≤ d && d ≤ daysInMonth y mo

/-- JavaScript `line.slice(a, b)` on char lists. -/
def sliceL (cs : List Char) (a b : Nat) : List Char := (cs.drop a).take (b - a)

/-- One parsed occurrence: the fields of the source object
`{ when, context, raw, offset, recur }` plus the internal span ends
(`endPos` = end of the regex match, `end2` = end including the
consumed recurrence suffix). -/
structure Occ where
  when : DT
  context : List Char
  raw : List Char
  offset : Nat
  recur : Option Recur
  endPos : Nat
  end2 : Nat
deriving DecidableEq, Repr

def processOne (line : List Char) (start : Nat) (st : RawStamp) (nextStart : Nat) :
    Option Occ :=
  let hh := resolve12 st.hh st.ap
  if 23 < hh ∨ 59 < st.mm then none
  else if ¬ validDate st.y st.mo st.d = true then none
  else
    let tail := sliceL line st.endPos nextStart
    let rm := recurMatch tail
    let end2 := st.endPos + rm.2
    let before := trimWS (line.take start)
    let after := trimWS (line.drop end2)
    some { when := ⟨st.y, st.mo, st.d, hh, st.mm⟩
           context := trimWS (before ++ (if ¬ before = [] ∧ ¬ after = [] then [' '] else []) ++ after)
           raw := sliceL line start st.endPos
           offset := start
           recur := rm.1
           endPos := st.endPos
           end2 := end2 }

def processAll (line : List Char) : List (Nat × RawStamp) → List Occ
  | [] => []
  | (s, st) :: rest =>
    let nextStart := match rest with
      | (s2, _) :: _ => s2
      | [] => line.length
    match processOne line s st nextStart with
    | some o => o :: processAll line rest
    | none => processAll line rest

/-- `parseClockEmojiAll` (lines 578-623). -/
def parseClockEmojiAll (line : List Char) : List Occ :=
  processAll line (scanStamps line)

/-- `getTaskStatusChar` (lines 564-568): `/^\s*[-*]\s*\[([^\]])\]/`. -/
def getTaskStatusChar (line : List Char) : Option Char :=
  let i := wsEnd line 0
  match (line)[i]? with
  | some c =>
    if c = '-' || c = '*' then
      let i2 := wsEnd line (i + 1)
      match (line)[i2]?, (line)[i2 + 1]?, (line)[i2 + 2]? with
      | some b1, some st, some b2 =>
        if b1 = '[' ∧ ¬ st = ']' ∧ b2 = ']' then some st else none
      | _, _, _ => none
    else none
  | none => none

/-- `shouldDismissStatus` (lines 571-575). -/
def shouldDismissStatus (st : Char) (dismiss : List Char) : Bool :=
  if dismiss = [] then false else (toLowerList dismiss).contains st.toLower

/-! ### Decimal tokens are injective (needed for the line-prefix test) -/

theorem digitCh_val : ∀ d : Nat, d < 10 → charVal (digitCh d) = d := by decide

theorem natCharsGo_fuel : ∀ (n f g : Nat), n < f → n < g → natCharsGo f n = natCharsGo g n := by
  intro n
  induction n using Nat.strong_induction_on with
  | _ n ih =>
    intro f g hf hg
    cases f with
    | zero => omega
    | succ f2 =>
      cases g with
      | zero => omega
      | succ g2 =>
        by_cases h10 : n < 10
        · simp [natCharsGo, h10]
        · simp only [natCharsGo, if_neg h10]
          have hlt : n / 10 < n := Nat.div_lt_self (by omega) (by omega)
          rw [ih (n / 10) hlt f2 g2 (by omega) (by omega)]

theorem natChars_eq (n : Nat) :
    natChars n = if n < 10 then [digitCh n] else natChars (n / 10) ++ [digitCh (n % 10)] := by
  by_cases h10 : n < 10
  · rw [if_pos h10]; unfold natChars; simp [natCharsGo, h10]
  · rw [if_neg h10]
    have hlt : n / 10 < n := Nat.div_lt_self (by omega) (by omega)
    show natChars n = natChars (n / 10) ++ [digitCh (n % 10)]
    unfold natChars
    rw [show natCharsGo (n + 1) n = natCharsGo n (n / 10) ++ [digitCh (n % 10)] from by
      simp [natCharsGo, h10]]
    rw [natCharsGo_fuel (n / 10) n (n / 10 + 1) hlt (by omega)]

theorem charsToNat_natChars : ∀ n : Nat, charsToNat (natChars n) = n := by
  intro n
  induction n using Nat.strong_induction_on with
  | _ n ih =>
    rw [natChars_eq]
    by_cases h10 : n < 10
    · rw [if_pos h10]
      show charsToNat [digitCh n] = n
      simp [charsToNat, digitCh_val n h10]
    · rw [if_neg h10]
      have hlt : n / 10 < n := Nat.div_lt_self (by omega) (by omega)
      show charsToNat (natChars (n / 10) ++ [digitCh (n % 10)]) = n
      unfold charsToNat
      rw [List.foldl_append]
      simp only [List.foldl_cons, List.foldl_nil]
      have h1 := ih (n / 10) hlt
      unfold charsToNat at h1
      rw [h1, digitCh_val (n % 10) (Nat.mod_lt n (by omega))]
      omega

theorem natChars_inj (a b : Nat) (h : natChars a = natChars b) : a = b := by
  have h2 := congrArg charsToNat h
  rwa [charsToNat_natChars, charsToNat_natChars] at h2

theorem startsWithB_append_both (p x y : List Char) :
    startsWithB (p ++ x) (p ++ y) = startsWithB x y := by
  induction p with
  | nil => rfl
  | cons c p2 ih =>
    simp only [List.cons_append, startsWithB]
    simp [ih]

theorem startsWithB_token (t1 : List Char) : ∀ (t2 r : List Char),
    (∀ c ∈ t1, ¬ c = '#') → (∀ c ∈ t2, ¬ c = '#') →
    (startsWithB (t1 ++ '#' :: r) (t2 ++ ['#']) = true ↔ t1 = t2) := by
  induction t1 with
  | nil =>
    intro t2 r h1 h2
    cases t2 with
    | nil => simp [startsWithB]
    | cons c2 t2' =>
      simp only [List.nil_append, List.cons_append, startsWithB]
      constructor
      · intro h
        exfalso
        have hc := (Bool.and_eq_true _ _).mp h
        have : ('#' : Char) = c2 := by
          have := hc.1; simpa using this
        exact h2 c2 (List.mem_cons_self c2 t2') this.symm
      · intro h; cases h
  | cons c t1' ih =>
    intro t2 r h1 h2
    cases t2 with
    | nil =>
      simp only [List.cons_append, List.nil_append, startsWithB]
      constructor
      · intro h
        exfalso
        have hc := (Bool.and_eq_true _ _).mp h
        have : c = '#' := by have := hc.1; simpa using this
        exact h1 c (List.mem_cons_self c t1') this
      · intro h; cases h
    | cons c2 t2' =>
      simp only [List.cons_append, startsWithB, Bool.and_eq_true, decide_eq_true_eq]
      have hih := ih t2' r (fun x hx => h1 x (List.mem_cons_of_mem c hx))
        (fun x hx => h2 x (List.mem_cons_of_mem c2 hx))
      constructor
      · rintro ⟨he, ht⟩
        rw [he, hih.mp ht]
      · intro h
        injection h with he ht
        exact ⟨he, hih.mpr ht⟩

/-- `id.startsWith(path#line#)` on an id built from the same path holds
exactly when the line indices agree. -/
theorem sw_schedId_linePrefix (p : List Char) (l : Nat) (w : Int) (o : Nat) (l0 : Nat) :
    startsWithB (schedId p l w o) (linePrefix p l0) = true ↔ l = l0 := by
  unfold schedId linePrefix
  rw [show p ++ '#' :: (natChars l ++ '#' :: (intChars (unixOf w) ++ '#' :: natChars o))
        = p ++ ['#'] ++ (natChars l ++ '#' :: (intChars (unixOf w) ++ '#' :: natChars o)) from by
      simp]
  rw [show p ++ '#' :: (natChars l0 ++ ['#']) = p ++ ['#'] ++ (natChars l0 ++ ['#']) from by simp]
  rw [startsWithB_append_both]
  rw [startsWithB_token (natChars l) (natChars l0) _ (natChars_hashfree l) (natChars_hashfree l0)]
  constructor
  · exact natChars_inj l l0
  · intro h; rw [h]

/-! ### Calendar epoch and the per-document scheduler
(src/main.new.js lines 196-257)

`dtMs` turns the parsed local date-time into the model's uniform
millisecond timeline (proleptic Gregorian; the zone offset of
`moment`'s local mode is a constant of the model).  The scheduler
(`scheduleFileFresh` / `scheduleFromFileNoClear`) is embedded with
explicit parameters for everything the methods read from `this`:
`isSender`, the dismiss-characters setting, the document lines and the
fire-time clock `now` (the source calls `moment()` per occurrence; the
scan is synchronous, so one value of `now` stands for all of them). -/

def cumDaysBefore (mo : Nat) : Nat :=
  if mo = 1 then 0 else if mo = 2 then 31 else if mo = 3 then 59
  else if mo = 4 then 90 else if mo = 5 then 120 else if mo = 6 then 151
  else if mo = 7 then 181 else if mo = 8 then 212 else if mo = 9 then 243
  else if mo = 10 then 273 else if mo = 11 then 304 else 334

def leapsBefore (y : Nat) : Nat :=
  if y = 0 then 0 else (y - 1) / 4 - (y - 1) / 100 + (y - 1) / 400

def totalDaysN (y mo d : Nat) : Nat :=
  365 * y + leapsBefore y + cumDaysBefore mo
    + (if isLeapB y && 2 < mo then 1 else 0) + (d - 1)

def dtMs (w : DT) : Int :=
  ((totalDaysN w.y w.mo w.d : Int) - (totalDaysN 1970 1 1 : Int)) * 86400000
    + (w.hh : Int) * 3600000 + (w.mm : Int) * 60000

/-- The per-occurrence body of the scan loop (lines 230-251): resolve
the effective first future instant, register it, and record whether
the edited line got a future timer. -/
def scheduleOcc (path : List Char) (i : Nat) (editedLine : Option Nat) (now : Int)
    (ab : Reg × Bool) (o : Occ) : Reg × Bool :=
  let whenMs := dtMs o.when
  let firstWhen : Option Int :=
    match o.recur with
    | some r => advanceToFuture whenMs r now
    | none => if now < whenMs then some whenMs else none
  match firstWhen with
  | none => ab
  | some fw =>
    (scheduleOneReminder ab.1 path i fw o.offset o.recur now,
     ab.2 || (editedLine = some i && now < fw))

/-- One line of `scheduleFromFileNoClear` (lines 212-252): dismissal
filter, parse, per-line cancel, then the occurrence loop. -/
def scheduleLine (path : List Char) (dismiss : List Char) (editedLine : Option Nat)
    (now : Int) (acc : Reg × Bool) (il : Nat × List Char) : Reg × Bool :=
  let dismissed :=
    match getTaskStatusChar il.2 with
    | some st => shouldDismissStatus st dismiss
    | none => false
  if dismissed = true then acc
  else
    let ms := parseClockEmojiAll il.2
    if ms = [] then acc
    else
      let s1 := clearTimersForLine acc.1 path il.1
      ms.foldl (scheduleOcc path il.1 editedLine now) (s1, acc.2)

/-- `scheduleFromFileNoClear` (lines 207-257); the returned `Bool` is
`scheduledEditedLine` (it only drives the "Reminder set" notice). -/
def scheduleFromFileNoClear (s : Reg) (isSender : Bool) (path : List Char)
    (lines : List (List Char)) (dismiss : List Char) (editedLine : Option Nat)
    (now : Int) : Reg × Bool :=
  if ¬ isSender = true then (s, false)
  else (lines.enum).foldl (scheduleLine path dismiss editedLine now) (s, false)

/-- `scheduleFileFresh` (lines 196-204). -/
def scheduleFileFresh (s : Reg) (isSender : Bool) (path : List Char)
    (lines : List (List Char)) (dismiss : List Char) (editedLine : Option Nat)
    (now : Int) : Reg × Bool :=
  if ¬ isSender = true then (clearTimersForFile s path, false)
  else scheduleFromFileNoClear (clearTimersForFile s path) isSender path lines dismiss
    editedLine now

theorem scheduleOcc_reg (path : List Char) (i : Nat) (h1 h2 : Option Nat) (now : Int)
    (ab1 ab2 : Reg × Bool) (o : Occ) (hr : ab1.1 = ab2.1) :
    (scheduleOcc path i h1 now ab1 o).1 = (scheduleOcc path i h2 now ab2 o).1 := by
  unfold scheduleOcc
  cases o.recur with
  | none =>
    by_cases hw : now < dtMs o.when
    · simp only [if_pos hw, hr]
    · simp only [if_neg hw, hr]
  | some r =>
    cases hA : advanceToFuture (dtMs o.when) r now with
    | none => simp [hA, hr]
    | some fw => simp [hA, hr]

theorem foldOcc_reg (path : List Char) (i : Nat) (h1 h2 : Option Nat) (now : Int) :
    ∀ (ms : List Occ) (s : Reg) (b1 b2 : Bool),
    (ms.foldl (scheduleOcc path i h1 now) (s, b1)).1
      = (ms.foldl (scheduleOcc path i h2 now) (s, b2)).1 := by
  intro ms
  induction ms with
  | nil => intro s b1 b2; rfl
  | cons o rest ih =>
    intro s b1 b2
    simp only [List.foldl_cons]
    have hr : (scheduleOcc path i h1 now (s, b1) o).1
        = (scheduleOcc path i h2 now (s, b2) o).1 :=
      scheduleOcc_reg path i h1 h2 now (s, b1) (s, b2) o rfl
    have e1 : scheduleOcc path i h1 now (s, b1) o
        = ((scheduleOcc path i h1 now (s, b1) o).1, (scheduleOcc path i h1 now (s, b1) o).2) := rfl
    have e2 : scheduleOcc path i h2 now (s, b2) o
        = ((scheduleOcc path i h2 now (s, b2) o).1, (scheduleOcc path i h2 now (s, b2) o).2) := rfl
    rw [e1, e2, ← hr]
    exact ih _ _ _

theorem scheduleLine_reg (path : List Char) (dismiss : List Char) (h1 h2 : Option Nat)
    (now : Int) (acc1 acc2 : Reg × Bool) (il : Nat × List Char) (hr : acc1.1 = acc2.1) :
    (scheduleLine path dismiss h1 now acc1 il).1
      = (scheduleLine path dismiss h2 now acc2 il).1 := by
  unfold scheduleLine
  by_cases hd : (match getTaskStatusChar il.2 with
    | some st => shouldDismissStatus st dismiss
    | none => false) = true
  · simp only [if_pos hd, hr]
  · simp only [if_neg hd]
    by_cases hm : parseClockEmojiAll il.2 = []
    · simp only [if_pos hm, hr]
    · simp only [if_neg hm, hr]
      exact foldOcc_reg path il.1 h1 h2 now _ _ _ _

theorem foldLines_reg (path : List Char) (dismiss : List Char) (h1 h2 : Option Nat)
    (now : Int) :
    ∀ (L : List (Nat × List Char)) (s : Reg) (b1 b2 : Bool),
    (L.foldl (scheduleLine path dismiss h1 now) (s, b1)).1
      = (L.foldl (scheduleLine path dismiss h2 now) (s, b2)).1 := by
  intro L
  induction L with
  | nil => intro s b1 b2; rfl
  | cons il rest ih =>
    intro s b1 b2
    simp only [List.foldl_cons]
    have hr : (scheduleLine path dismiss h1 now (s, b1) il).1
        = (scheduleLine path dismiss h2 now (s, b2) il).1 :=
      scheduleLine_reg path dismiss h1 h2 now (s, b1) (s, b2) il rfl
    have e1 : scheduleLine path dismiss h1 now (s, b1) il
        = ((scheduleLine path dismiss h1 now (s, b1) il).1,
           (scheduleLine path dismiss h1 now (s, b1) il).2) := rfl
    have e2 : scheduleLine path dismiss h2 now (s, b2) il
        = ((scheduleLine path dismiss h2 now (s, b2) il).1,
           (scheduleLine path dismiss h2 now (s, b2) il).2) := rfl
    rw [e1, e2, ← hr]
    exact ih _ _ _

/-! ### Claim C2 -/

/-- C2 (amended): a rescan invoked with an edited-line hint cancels all
of the document's timers — `scheduleFileFresh` always calls
`clearTimersForFile` first (line 199), and its registry result does not
depend on the hint at all (the hint only drives the "Reminder set"
notice).  Prefix-scoped cancellation exists only inside
`clearTimersForLine`: it leaves every timer of the same document whose
key carries a different line index untouched (same id, same handle),
and removes exactly the ids whose key prefix matches
`(documentPath, lineIndex)`. -/
theorem claim_C2 :
    (∀ (s : Reg) (b : Bool) (path : List Char) (lines : List (List Char))
        (dismiss : List Char) (h : Option Nat) (now : Int),
      (scheduleFileFresh s b path lines dismiss h now).1
        = (scheduleFileFresh s b path lines dismiss none now).1)
    ∧ (∀ (s : Reg) (path : List Char) (l0 l : Nat) (w : Int) (o hd : Nat),
      ¬ l = l0 → (schedId path l w o, hd) ∈ s.timerHandles →
      (schedId path l w o, hd) ∈ (clearTimersForLine s path l0).timerHandles)
    ∧ (∀ (s : Reg) (path : List Char) (l0 : Nat) (w : Int) (o : Nat)
        (ids : List (List Char)),
      lookupA s.fileTimers path = some ids → schedId path l0 w o ∈ ids →
      lookupA (clearTimersForLine s path l0).timerHandles (schedId path l0 w o) = none) := by
  refine ⟨?_, ?_, ?_⟩
  · intro s b path lines dismiss h now
    unfold scheduleFileFresh
    by_cases hb : ¬ b = true
    · rw [if_pos hb, if_pos hb]
    · rw [if_neg hb, if_neg hb]
      unfold scheduleFromFileNoClear
      rw [if_neg hb, if_neg hb]
      exact foldLines_reg path dismiss h none now _ _ _ _
  · intro s path l0 l w o hd hne hmem
    cases hF : lookupA s.fileTimers path with
    | none =>
      have he : clearTimersForLine s path l0 = s := by
        simp only [clearTimersForLine, hF]
      rw [he]; exact hmem
    | some ids =>
      have hH : (clearTimersForLine s path l0).timerHandles
          = s.timerHandles.filter
              (fun kv => ¬ (kv.1 ∈ ids ∧ startsWithB kv.1 (linePrefix path l0) = true)) := by
        simp only [clearTimersForLine, hF]
      rw [hH]
      simp only [List.mem_filter, decide_eq_true_eq]
      refine ⟨hmem, ?_⟩
      rintro ⟨-, hsw⟩
      exact hne ((sw_schedId_linePrefix path l w o l0).mp hsw)
  · intro s path l0 w o ids hF hmem
    have hH : (clearTimersForLine s path l0).timerHandles
        = s.timerHandles.filter
            (fun kv => ¬ (kv.1 ∈ ids ∧ startsWithB kv.1 (linePrefix path l0) = true)) := by
      simp only [clearTimersForLine, hF]
    rw [hH]
    rw [lookupA_none_iff]
    rintro ⟨v, hv⟩
    simp only [List.mem_filter, decide_eq_true_eq] at hv
    exact hv.2 ⟨hmem, (sw_schedId_linePrefix path l0 w o l0).mpr rfl⟩

/-- A registry holding one timer for line 1 of `a.md`. -/
def c2State : Reg :=
  scheduleOneReminder Reg.empty (("a.md").toList) 1 100000 0 none 0

/-- C2 counterexample: a live timer for line 1 of the document, a
targeted rescan with edited-line hint 0 over content whose line 0 has
no stamps — afterwards the line-1 timer is gone, although the claim
says timers of other line indices survive a hinted rescan. -/
theorem claim_C2_cex :
    (lookupA c2State.timerHandles (schedId (("a.md").toList) 1 100000 0)).isSome = true
    ∧ lookupA (scheduleFileFresh c2State true (("a.md").toList) [[]] [] (some 0) 0).1.timerHandles
        (schedId (("a.md").toList) 1 100000 0) = none := by
  refine ⟨?_, ?_⟩ <;> decide

/-- Two timers for lines 5 and 1 of the same document. -/
def c2WState : Reg :=
  scheduleOneReminder
    (scheduleOneReminder Reg.empty (("a.md").toList) 5 90000 0 none 0)
    (("a.md").toList) 1 90000 0 none 0

/-- C2 witness: `clearTimersForLine` for line 1 keeps the line-5
timer's exact entry and removes the line-1 id. -/
theorem claim_C2_witness :
    ((schedId (("a.md").toList) 5 90000 0, 0)
        ∈ (clearTimersForLine c2WState (("a.md").toList) 1).timerHandles)
    ∧ lookupA (clearTimersForLine c2WState (("a.md").toList) 1).timerHandles
        (schedId (("a.md").toList) 1 90000 0) = none :=
  ⟨claim_C2.2.1 c2WState (("a.md").toList) 1 5 90000 0 0 (by decide) (by decide),
   claim_C2.2.2 c2WState (("a.md").toList) 1 90000 0
     [schedId (("a.md").toList) 5 90000 0, schedId (("a.md").toList) 1 90000 0]
     (by decide) (by decide)⟩

/-! ### Parser invariants: validity filtering and recurrence clamping -/

theorem processOne_none (line : List Char) (start : Nat) (st : RawStamp) (nextStart : Nat)
    (h : 23 < resolve12 st.hh st.ap ∨ 59 < st.mm ∨ ¬ validDate st.y st.mo st.d = true) :
    processOne line start st nextStart = none := by
  by_cases h1 : 23 < resolve12 st.hh st.ap ∨ 59 < st.mm
  · simp only [processOne]
    rw [if_pos h1]
  · have h2 : ¬ validDate st.y st.mo st.d = true := by
      rcases h with h | h | h
      · exact absurd (Or.inl h) h1
      · exact absurd (Or.inr h) h1
      · exact h
    simp only [processOne]
    rw [if_neg h1, if_pos h2]

theorem processOne_valid (line : List Char) (start : Nat) (st : RawStamp) (nextStart : Nat)
    (o : Occ) (h : processOne line start st nextStart = some o) :
    o.when.hh ≤ 23 ∧ o.when.mm ≤ 59 ∧ validDate o.when.y o.when.mo o.when.d = true := by
  simp only [processOne] at h
  split at h
  · simp at h
  · split at h
    · simp at h
    · next h1 h2 =>
      injection h with h'
      subst h'
      push_neg at h1
      refine ⟨Nat.le_of_lt_succ (Nat.lt_succ_of_le h1.1), h1.2, ?_⟩
      simpa using h2

theorem processOne_recur (line : List Char) (start : Nat) (st : RawStamp) (nextStart : Nat)
    (o : Occ) (h : processOne line start st nextStart = some o) :
    o.recur = (recurMatch (sliceL line st.endPos nextStart)).1 := by
  simp only [processOne] at h
  split at h
  · simp at h
  · split at h
    · simp at h
    · injection h with h'
      subst h'
      rfl

theorem processAll_mem_ex (line : List Char) : ∀ (S : List (Nat × RawStamp)) (o : Occ),
    o ∈ processAll line S →
    ∃ s st nextStart, processOne line s st nextStart = some o := by
  intro S
  induction S with
  | nil =>
    intro o ho
    simp [processAll] at ho
  | cons p rest ih =>
    intro o ho
    obtain ⟨s, st⟩ := p
    cases rest with
    | nil =>
      have hE : processAll line [(s, st)]
          = match processOne line s st line.length with
            | some o2 => o2 :: processAll line []
            | none => processAll line [] := rfl
      rw [hE] at ho
      cases hp : processOne line s st line.length with
      | none =>
        rw [hp] at ho
        simp [processAll] at ho
      | some o2 =>
        rw [hp] at ho
        have hoe : o = o2 := by simpa [processAll] using ho
        exact ⟨s, st, line.length, by rw [hp, hoe]⟩
    | cons q rest2 =>
      obtain ⟨s2, st2⟩ := q
      have hE : processAll line ((s, st) :: (s2, st2) :: rest2)
          = match processOne line s st s2 with
            | some o2 => o2 :: processAll line ((s2, st2) :: rest2)
            | none => processAll line ((s2, st2) :: rest2) := rfl
      rw [hE] at ho
      cases hp : processOne line s st s2 with
      | none =>
        rw [hp] at ho
        exact ih o ho
      | some o2 =>
        rw [hp] at ho
        rcases List.mem_cons.mp ho with h | h
        · exact ⟨s, st, s2, by rw [hp, h]⟩
        · exact ih o h

theorem findUnitTok_some (tail : List Char) (i : Nat) :
    ∀ (toks : List (List Char)) (tok : List Char) (j : Nat),
    findUnitTok tail i toks = some (tok, j) → tok ∈ toks ∧ j = i + tok.length := by
  intro toks
  induction toks with
  | nil =>
    intro tok j h
    simp [findUnitTok] at h
  | cons t rest ih =>
    intro tok j h
    simp only [findUnitTok] at h
    split at h
    · injection h with h'
      injection h' with h1 h2
      subst h1
      exact ⟨List.mem_cons_self _ _, h2.symm⟩
    · obtain ⟨hm, hj⟩ := ih tok j h
      exact ⟨List.mem_cons_of_mem _ hm, hj⟩

theorem unitTokens_len : ∀ t ∈ unitTokens, 1 ≤ t.length := by decide

theorem recurMatch_every (tail : List Char) (r : Recur)
    (h : (recurMatch tail).1 = some r) :
    1 ≤ r.every ∧ 1 ≤ (recurMatch tail).2 := by
  rcases hrm : recurMatch tail with ⟨ro, n⟩
  rw [hrm] at h
  simp only at h
  subst h
  simp only [recurMatch] at hrm
  split at hrm
  · simp at hrm
  · split at hrm
    · simp at hrm
    · split at hrm
      · simp at hrm
      · split at hrm
        · simp at hrm
        · next tok i6 hfind =>
          split at hrm
          · split at hrm
            · next u hu hev =>
              injection hrm with h1 h2
              injection h1 with h3
              subst h3
              obtain ⟨hmem, hj⟩ := findUnitTok_some tail _ unitTokens tok i6 hfind
              constructor
              · exact Nat.le_max_left 1 _
              · rw [← h2, hj]
                calc 1 ≤ tok.length := unitTokens_len tok hmem
                  _ ≤ _ + tok.length := Nat.le_add_left _ _
            · simp at hrm
          · simp at hrm

/-- C6: 12-hour resolution adds 12 for `pm` hours below 12 and maps
`12 am` to hour 0; a raw stamp whose resolved hour exceeds 23, whose
minute exceeds 59, or whose date is not a valid calendar date produces
no occurrence (silently dropped); consequently every occurrence the
parser emits carries a fully resolved valid date-time. -/
theorem claim_C6 :
    (∀ hh : Nat, hh < 12 → resolve12 hh (some true) = hh + 12)
    ∧ resolve12 12 (some false) = 0
    ∧ (∀ (line : List Char) (start : Nat) (st : RawStamp) (nextStart : Nat),
        23 < resolve12 st.hh st.ap ∨ 59 < st.mm ∨ ¬ validDate st.y st.mo st.d = true →
        processOne line start st nextStart = none)
    ∧ (∀ (line : List Char) (o : Occ), o ∈ parseClockEmojiAll line →
        o.when.hh ≤ 23 ∧ o.when.mm ≤ 59 ∧ validDate o.when.y o.when.mo o.when.d = true) := by
  refine ⟨?_, rfl, ?_, ?_⟩
  · intro hh h
    simp [resolve12, h]
  · exact processOne_none
  · intro line o ho
    simp only [parseClockEmojiAll] at ho
    obtain ⟨s, st, ns, hp⟩ := processAll_mem_ex line (scanStamps line) o ho
    exact processOne_valid line s st ns o hp

/-- A parsed occurrence of the line `⏰ 2025-01-01 5`. -/
def c6occ : Occ :=
  ⟨⟨2025, 1, 1, 5, 0⟩, [], ("⏰ 2025-01-01 5").toList, 0, none, 14, 14⟩

/-- C6 witness: `11 pm` resolves to hour 23; the impossible date
`2025-02-30` yields no occurrence; a concrete emitted occurrence has a
valid date-time. -/
theorem claim_C6_witness :
    resolve12 11 (some true) = 11 + 12
    ∧ processOne (("⏰ 2025-02-30 5").toList) 0 ⟨14, 2025, 2, 30, 5, 0, none⟩ 14 = none
    ∧ (c6occ.when.hh ≤ 23 ∧ c6occ.when.mm ≤ 59
        ∧ validDate c6occ.when.y c6occ.when.mo c6occ.when.d = true) :=
  ⟨claim_C6.1 11 (by decide),
   claim_C6.2.2.1 (("⏰ 2025-02-30 5").toList) 0 ⟨14, 2025, 2, 30, 5, 0, none⟩ 14
     (Or.inr (Or.inr (by decide))),
   claim_C6.2.2.2 (("⏰ 2025-01-01 5").toList) c6occ (by decide)⟩

/-- C10: every recurrence a parsed occurrence carries has
`every ≥ 1` — `Math.max(1, parseInt(...) || 0)` clamps the count — and
a successful recurrence-suffix match always consumes at least one
character of the tail; in particular `every 0 m` is not rejected: the
occurrence keeps a recurrence of one minute and the suffix span is
removed from its context. -/
theorem claim_C10 :
    (∀ (line : List Char) (o : Occ), o ∈ parseClockEmojiAll line →
      ∀ r : Recur, o.recur = some r → 1 ≤ r.every)
    ∧ (∀ (tail : List Char) (r : Recur), (recurMatch tail).1 = some r →
      1 ≤ r.every ∧ 1 ≤ (recurMatch tail).2)
    ∧ parseClockEmojiAll (("x ⏰ 2025-01-01 5 every 0 m y").toList)
      = [⟨⟨2025, 1, 1, 5, 0⟩, ("x y").toList, ("⏰ 2025-01-01 5 ").toList, 2,
          some ⟨1, RUnit.minutes⟩, 17, 26⟩] := by
  refine ⟨?_, recurMatch_every, by decide⟩
  intro line o ho r hr
  simp only [parseClockEmojiAll] at ho
  obtain ⟨s, st, ns, hp⟩ := processAll_mem_ex line (scanStamps line) o ho
  have h1 := processOne_recur line s st ns o hp
  rw [hr] at h1
  exact (recurMatch_every _ r h1.symm).1

/-- C10 witness: the `every 0 m` occurrence above is emitted with a
clamped one-minute recurrence. -/
theorem claim_C10_witness :
    1 ≤ (1 : Nat)
    ∧ (1 ≤ (1 : Nat) ∧ 1 ≤ (recurMatch (("every 0 m y").toList)).2) :=
  ⟨claim_C10.1 (("x ⏰ 2025-01-01 5 every 0 m y").toList)
      ⟨⟨2025, 1, 1, 5, 0⟩, ("x y").toList, ("⏰ 2025-01-01 5 ").toList, 2,
        some ⟨1, RUnit.minutes⟩, 17, 26⟩ (by decide) ⟨1, RUnit.minutes⟩ (by decide),
   claim_C10.2.1 (("every 0 m y").toList) ⟨1, RUnit.minutes⟩ (by decide)⟩

/-! ### Whitespace, trimming and slicing facts for the context claim -/

theorem ws_cases (c : Char) (h : isWSC c = true) :
    c = ' ' ∨ c = '\t' ∨ c = '\n' ∨ c = '\r' ∨ c = '\x0b' ∨ c = '\x0c' := by
  simpa [isWSC, or_assoc] using h

theorem digit_not_ws (c : Char) (hd : c.isDigit = true) : isWSC c = false := by
  cases hx : isWSC c
  · rfl
  · rcases ws_cases c hx with h | h | h | h | h | h <;> subst h <;> exact absurd hd (by decide)

theorem word_not_ws (c : Char) (hd : isWordC c = true) : isWSC c = false := by
  cases hx : isWSC c
  · rfl
  · rcases ws_cases c hx with h | h | h | h | h | h <;> subst h <;> exact absurd hd (by decide)

theorem getElem?_some_lt (l : List Char) (i : Nat) (c : Char) (h : l[i]? = some c) :
    i < l.length := by
  by_contra hc
  rw [List.getElem?_eq_none (by omega)] at h
  exact Option.noConfusion h

theorem head?_dropWhile_false (p : Char → Bool) :
    ∀ (l : List Char) (c : Char), (l.dropWhile p).head? = some c → p c = false := by
  intro l
  induction l with
  | nil =>
    intro c h
    simp at h
  | cons a t ih =>
    intro c h
    rw [List.dropWhile_cons] at h
    split at h
    · exact ih c h
    · next hpa =>
      simp only [List.head?_cons] at h
      injection h with h2
      subst h2
      cases hpb : p a
      · rfl
      · exact absurd hpb hpa

theorem dropWhile_append_head (A X : List Char) (c : Char)
    (hc : X.head? = some c) (hw : isWSC c = false) :
    (A ++ X).dropWhile isWSC = A.dropWhile isWSC ++ X := by
  induction A with
  | nil =>
    cases X with
    | nil => simp at hc
    | cons x t =>
      simp only [List.head?_cons] at hc
      injection hc with h2
      subst h2
      simp [List.dropWhile_cons, hw]
  | cons a t ih =>
    by_cases ha : isWSC a = true
    · simp [List.dropWhile_cons, ha, ih]
    · simp [List.dropWhile_cons, ha]

theorem getLast?_dropWhile_of_some (p : Char → Bool) :
    ∀ (l : List Char) (c : Char), (l.dropWhile p).getLast? = some c → l.getLast? = some c := by
  intro l
  induction l with
  | nil =>
    intro c h
    simp at h
  | cons a t ih =>
    intro c h
    rw [List.dropWhile_cons] at h
    split at h
    · have ht := ih c h
      rw [List.getLast?_eq_head?_reverse, List.reverse_cons, List.head?_append]
      rw [List.getLast?_eq_head?_reverse] at ht
      rw [ht]
      rfl
    · exact h

theorem trimWS_head (l : List Char) (c : Char) (h : (trimWS l).head? = some c) :
    isWSC c = false := by
  unfold trimWS at h
  rw [List.head?_reverse] at h
  have h2 := getLast?_dropWhile_of_some isWSC _ c h
  rw [List.getLast?_reverse] at h2
  exact head?_dropWhile_false isWSC _ c h2

theorem trimWS_last (l : List Char) (c : Char) (h : (trimWS l).getLast? = some c) :
    isWSC c = false := by
  unfold trimWS at h
  rw [List.getLast?_reverse] at h
  exact head?_dropWhile_false isWSC _ c h

theorem getLast?_some_of_ne_nil (l : List Char) (h : ¬ l = []) : ∃ c, l.getLast? = some c := by
  cases hr : l.reverse with
  | nil => exact absurd (List.reverse_eq_nil_iff.mp hr) h
  | cons a t => exact ⟨a, by rw [List.getLast?_eq_head?_reverse, hr]; rfl⟩

theorem trimWS_eq_self (l : List Char)
    (h1 : ∀ c, l.head? = some c → isWSC c = false)
    (h2 : ∀ c, l.getLast? = some c → isWSC c = false) : trimWS l = l := by
  rcases l with _ | ⟨a, t⟩
  · rfl
  · have ha : isWSC a = false := h1 a rfl
    have hstep : (a :: t).dropWhile isWSC = a :: t := by
      rw [List.dropWhile_cons, if_neg (by simp [ha])]
    rcases hrev : (a :: t).reverse with _ | ⟨d, r⟩
    · exact absurd (List.reverse_eq_nil_iff.mp hrev) (by simp)
    · have hd : (a :: t).getLast? = some d := by
        rw [List.getLast?_eq_head?_reverse, hrev]
        rfl
      have hdw := h2 d hd
      show ((((a :: t).dropWhile isWSC).reverse).dropWhile isWSC).reverse = a :: t
      rw [hstep, hrev, List.dropWhile_cons, if_neg (by simp [hdw]), ← hrev,
        List.reverse_reverse]

theorem head?_some_of_ne_nil (l : List Char) (h : ¬ l = []) : ∃ c, l.head? = some c := by
  cases l with
  | nil => exact absurd rfl h
  | cons a t => exact ⟨a, rfl⟩

theorem trimWS_join (x y : List Char) :
    trimWS (trimWS x ++ (if ¬ trimWS x = [] ∧ ¬ trimWS y = [] then [' '] else []) ++ trimWS y)
      = trimWS x ++ (if ¬ trimWS x = [] ∧ ¬ trimWS y = [] then [' '] else []) ++ trimWS y := by
  by_cases hb : trimWS x = []
  · by_cases ha : trimWS y = []
    · rw [if_neg (by simp [hb])]
      simp only [hb, ha, List.nil_append, List.append_nil]
      rfl
    · rw [if_neg (by simp [hb])]
      simp only [hb, List.nil_append]
      exact trimWS_eq_self _ (trimWS_head y) (trimWS_last y)
  · by_cases ha : trimWS y = []
    · rw [if_neg (by simp [ha])]
      simp only [ha, List.append_nil]
      exact trimWS_eq_self _ (trimWS_head x) (trimWS_last x)
    · rw [if_pos ⟨hb, ha⟩]
      apply trimWS_eq_self
      · intro c h
        obtain ⟨d, hd⟩ := head?_some_of_ne_nil _ hb
        rw [List.append_assoc, List.head?_append, hd] at h
        injection h with h2
        subst h2
        exact trimWS_head x d hd
      · intro c h
        obtain ⟨d, hd⟩ := getLast?_some_of_ne_nil _ ha
        rw [List.getLast?_append, hd] at h
        injection h with h2
        subst h2
        exact trimWS_last y d hd

theorem raw_infix_trim (A raw B : List Char)
    (hhead : ∃ c, raw.head? = some c ∧ isWSC c = false)
    (hlast : (∃ c, raw.getLast? = some c ∧ isWSC c = false)
           ∨ (∃ c, B.head? = some c ∧ isWSC c = false)) :
    List.IsInfix raw (trimWS (A ++ raw ++ B)) := by
  obtain ⟨c0, hc0, hc0w⟩ := hhead
  have hfront : (A ++ raw ++ B).dropWhile isWSC = A.dropWhile isWSC ++ (raw ++ B) := by
    rw [List.append_assoc]
    exact dropWhile_append_head A (raw ++ B) c0 (by rw [List.head?_append, hc0]; rfl) hc0w
  rcases hlast with ⟨d, hd, hdw⟩ | ⟨b0, hb0, hbw⟩
  · have hrevraw : (raw.reverse).head? = some d := by rw [List.head?_reverse]; exact hd
    have hback : ((A.dropWhile isWSC ++ (raw ++ B)).reverse).dropWhile isWSC
        = (B.reverse).dropWhile isWSC ++ (raw.reverse ++ (A.dropWhile isWSC).reverse) := by
      have hsh : (A.dropWhile isWSC ++ (raw ++ B)).reverse
          = B.reverse ++ (raw.reverse ++ (A.dropWhile isWSC).reverse) := by
        simp [List.reverse_append]
      rw [hsh]
      exact dropWhile_append_head _ _ d (by rw [List.head?_append, hrevraw]; rfl) hdw
    refine ⟨A.dropWhile isWSC, ((B.reverse).dropWhile isWSC).reverse, ?_⟩
    show A.dropWhile isWSC ++ raw ++ ((B.reverse).dropWhile isWSC).reverse
        = trimWS (A ++ raw ++ B)
    unfold trimWS
    rw [hfront, hback]
    simp [List.reverse_append, List.append_assoc]
  · obtain ⟨B1, rfl⟩ : ∃ B1, B = b0 :: B1 := by
      cases B with
      | nil => simp at hb0
      | cons x t =>
        simp only [List.head?_cons] at hb0
        exact ⟨t, by rw [Option.some.inj hb0]⟩
    have hback : ((A.dropWhile isWSC ++ (raw ++ b0 :: B1)).reverse).dropWhile isWSC
        = (B1.reverse).dropWhile isWSC
            ++ (b0 :: (raw.reverse ++ (A.dropWhile isWSC).reverse)) := by
      have hsh : (A.dropWhile isWSC ++ (raw ++ b0 :: B1)).reverse
          = B1.reverse ++ (b0 :: (raw.reverse ++ (A.dropWhile isWSC).reverse)) := by
        simp [List.reverse_append]
      rw [hsh]
      exact dropWhile_append_head _ _ b0 rfl hbw
    refine ⟨A.dropWhile isWSC, b0 :: ((B1.reverse).dropWhile isWSC).reverse, ?_⟩
    show A.dropWhile isWSC ++ raw ++ (b0 :: ((B1.reverse).dropWhile isWSC).reverse)
        = trimWS (A ++ raw ++ b0 :: B1)
    unfold trimWS
    rw [hfront, hback]
    simp [List.reverse_append, List.append_assoc]

theorem slice_decomp (l : List Char) (a b : Nat) (hab : a ≤ b) :
    l = l.take a ++ sliceL l a b ++ l.drop b := by
  unfold sliceL
  conv_lhs => rw [← List.take_append_drop a l]
  rw [List.append_assoc]
  congr 1
  rw [show l.drop b = (l.drop a).drop (b - a) from by rw [List.drop_drop]; congr 1; omega]
  exact (List.take_append_drop _ _).symm

theorem slice_take (l : List Char) (a b s : Nat) (hab : a ≤ b) (hbs : b ≤ s) :
    sliceL (l.take s) a b = sliceL l a b := by
  unfold sliceL
  rw [List.drop_take, List.take_take]
  congr 1
  omega

theorem slice_drop (l : List Char) (k a b : Nat) (hk : k ≤ a) :
    sliceL (l.drop k) (a - k) (b - k) = sliceL l a b := by
  unfold sliceL
  rw [List.drop_drop, show k + (a - k) = a from by omega]
  congr 1
  omega

theorem slice_head (l : List Char) (a b : Nat) (hab : a < b) :
    (sliceL l a b).head? = l[a]? := by
  unfold sliceL
  rw [List.head?_take, if_neg (by omega), List.head?_drop]

theorem slice_last (l : List Char) (a b : Nat) (hab : a < b) (hb : b ≤ l.length) :
    (sliceL l a b).getLast? = l[b - 1]? := by
  unfold sliceL
  rw [List.getLast?_eq_getElem?]
  have hlen : ((l.drop a).take (b - a)).length = b - a := by
    simp [List.length_take, List.length_drop]
    omega
  rw [hlen, List.getElem?_take_of_lt (by omega), List.getElem?_drop]
  congr 1
  omega

/-! ### Regex-match end conditions -/

def matchEndCond (cs : List Char) (e : Nat) : Prop :=
  (∃ c, cs[e - 1]? = some c ∧ isWSC c = false) ∨ (∃ c, cs[e]? = some c ∧ isWordC c = true)

theorem countWS_le : ∀ l : List Char, countWS l ≤ l.length := by
  intro l
  induction l with
  | nil => exact Nat.le_refl 0
  | cons c r ih =>
    unfold countWS
    split
    · simpa using ih
    · exact Nat.zero_le _

theorem wsEnd_ge (cs : List Char) (i : Nat) : i ≤ wsEnd cs i := Nat.le_add_right _ _

theorem wsEnd_le (cs : List Char) (i : Nat) (h : i ≤ cs.length) : wsEnd cs i ≤ cs.length := by
  unfold wsEnd
  have h2 := countWS_le (cs.drop i)
  rw [List.length_drop] at h2
  omega

theorem digitAt_spec (cs : List Char) (i : Nat) (d : Nat) (h : digitAt cs i = some d) :
    ∃ c, cs[i]? = some c ∧ c.isDigit = true := by
  unfold digitAt at h
  split at h
  · next c heq =>
    split at h
    · next hd => exact ⟨c, heq, hd⟩
    · exact Option.noConfusion h
  · exact Option.noConfusion h

theorem tailEnd_spec (cs : List Char) (p e : Nat) (ap : Option Bool)
    (c0 : Char) (hc0 : cs[p - 1]? = some c0) (hc0d : c0.isDigit = true) (hp1 : 1 ≤ p)
    (h : tailEnd cs p = some (e, ap)) :
    p ≤ e ∧ e ≤ cs.length ∧ matchEndCond cs e := by
  have hplen : p ≤ cs.length := by
    have := getElem?_some_lt cs (p - 1) c0 hc0
    omega
  have hecp : matchEndCond cs p := by
    refine Or.inl ⟨c0, hc0, digit_not_ws c0 hc0d⟩
  simp only [tailEnd] at h
  split at h
  · -- apm = some pm branch: e = j2 + 2
    next pm hapm =>
    injection h with h2
    injection h2 with he hap
    subst he
    -- analyse the apm match
    split at hapm
    · next c1 c2 h1 h2' =>
      split at hapm
      · -- am case
        next hcond =>
        injection hapm with hpm
        have hc2 : c2 = 'm' ∨ c2 = 'M' := by
          simp only [Bool.and_eq_true, Bool.or_eq_true, decide_eq_true_eq] at hcond
          exact hcond.1.2
        refine ⟨le_trans (wsEnd_ge cs p) (by omega), ?_, ?_⟩
        · have := getElem?_some_lt cs (wsEnd cs p + 1) c2 h2'
          omega
        · refine Or.inl ⟨c2, by simpa using h2', ?_⟩
          rcases hc2 with h | h <;> subst h <;> decide
      · split at hapm
        · -- pm case
          next hcond =>
          injection hapm with hpm
          have hc2 : c2 = 'm' ∨ c2 = 'M' := by
            simp only [Bool.and_eq_true, Bool.or_eq_true, decide_eq_true_eq] at hcond
            exact hcond.1.2
          refine ⟨le_trans (wsEnd_ge cs p) (by omega), ?_, ?_⟩
          · have := getElem?_some_lt cs (wsEnd cs p + 1) c2 h2'
            omega
          · refine Or.inl ⟨c2, by simpa using h2', ?_⟩
            rcases hc2 with h | h <;> subst h <;> decide
        · exact Option.noConfusion hapm
    · exact Option.noConfusion hapm
  · -- apm = none branch
    split at h
    · -- p < j2
      next hplt =>
      split at h
      · next c heq =>
        split at h
        · -- word char at j2: e = j2
          next hword =>
          injection h with h2
          injection h2 with he hap
          subst he
          refine ⟨le_of_lt hplt, le_of_lt (getElem?_some_lt cs _ c heq), ?_⟩
          exact Or.inr ⟨c, heq, hword⟩
        · -- not word: e = p
          injection h with h2
          injection h2 with he hap
          subst he
          exact ⟨le_refl p, hplen, hecp⟩
      · injection h with h2
        injection h2 with he hap
        subst he
        exact ⟨le_refl p, hplen, hecp⟩
    · -- ¬ p < j2
      split at h
      · next c heq =>
        split at h
        · exact Option.noConfusion h
        · injection h with h2
          injection h2 with he hap
          subst he
          exact ⟨le_refl p, hplen, hecp⟩
      · injection h with h2
        injection h2 with he hap
        subst he
        exact ⟨le_refl p, hplen, hecp⟩

theorem hourRest_spec (cs : List Char) (p e mm : Nat) (ap : Option Bool)
    (c0 : Char) (hc0 : cs[p - 1]? = some c0) (hc0d : c0.isDigit = true) (hp1 : 1 ≤ p)
    (h : hourRest cs p = some (e, mm, ap)) :
    p ≤ e ∧ e ≤ cs.length ∧ matchEndCond cs e := by
  simp only [hourRest] at h
  split at h
  · -- withMin = some v
    next v hv =>
    injection h with h2
    subst h2
    split at hv
    · next ca cb cc hA hB hC =>
      split at hv
      · next hcond =>
        split at hv
        · next e1 ap1 hte =>
          injection hv with hv2
          injection hv2 with he hrest
          have hccd : cc.isDigit = true := by
            simp only [Bool.and_eq_true, decide_eq_true_eq] at hcond
            exact hcond.2
          obtain ⟨hs1, hs2, hs3⟩ :=
            tailEnd_spec cs (p + 3) e1 ap1 cc (by simpa using hC) hccd (by omega) hte
          exact he ▸ ⟨by omega, hs2, hs3⟩
        · exact Option.noConfusion hv
      · exact Option.noConfusion hv
    · exact Option.noConfusion hv
  · -- fallback: (tailEnd cs p).map
    cases hte : tailEnd cs p with
    | none =>
      rw [hte] at h
      exact Option.noConfusion h
    | some ea =>
      rw [hte] at h
      obtain ⟨e1, ap1⟩ := ea
      simp only [Option.map_some'] at h
      injection h with h2
      injection h2 with he hrest
      subst he
      exact tailEnd_spec cs p e1 ap1 c0 hc0 hc0d hp1 hte

theorem hourParse_spec (cs : List Char) (q e hh mm : Nat) (ap : Option Bool)
    (h : hourParse cs q = some (e, hh, mm, ap)) :
    q < e ∧ e ≤ cs.length ∧ matchEndCond cs e := by
  simp only [hourParse] at h
  split at h
  · exact Option.noConfusion h
  · next d1 hd1 =>
    obtain ⟨cq, hcq, hcqd⟩ := digitAt_spec cs q d1 hd1
    split at h
    · next d2 hd2 =>
      obtain ⟨cq1, hcq1, hcq1d⟩ := digitAt_spec cs (q + 1) d2 hd2
      split at h
      · next e1 mm1 ap1 hr =>
        injection h with h2
        injection h2 with he hrest
        obtain ⟨hs1, hs2, hs3⟩ :=
          hourRest_spec cs (q + 2) e1 mm1 ap1 cq1 (by simpa using hcq1) hcq1d (by omega) hr
        exact he ▸ ⟨by omega, hs2, hs3⟩
      · cases hr : hourRest cs (q + 1) with
        | none =>
          rw [hr] at h
          exact Option.noConfusion h
        | some x =>
          rw [hr] at h
          obtain ⟨e1, mm1, ap1⟩ := x
          simp only [Option.map_some'] at h
          injection h with h2
          injection h2 with he hrest
          obtain ⟨hs1, hs2, hs3⟩ :=
            hourRest_spec cs (q + 1) e1 mm1 ap1 cq (by simpa using hcq) hcqd (by omega) hr
          exact he ▸ ⟨by omega, hs2, hs3⟩
    · cases hr : hourRest cs (q + 1) with
      | none =>
        rw [hr] at h
        exact Option.noConfusion h
      | some x =>
        rw [hr] at h
        obtain ⟨e1, mm1, ap1⟩ := x
        simp only [Option.map_some'] at h
        injection h with h2
        injection h2 with he hrest
        obtain ⟨hs1, hs2, hs3⟩ :=
          hourRest_spec cs (q + 1) e1 mm1 ap1 cq (by simpa using hcq) hcqd (by omega) hr
        exact he ▸ ⟨by omega, hs2, hs3⟩

theorem matchStampAt_spec (cs : List Char) (i : Nat) (st : RawStamp)
    (h : matchStampAt cs i = some st) :
    i < st.endPos ∧ st.endPos ≤ cs.length ∧ cs[i]? = some '⏰'
      ∧ matchEndCond cs st.endPos := by
  simp only [matchStampAt] at h
  split at h
  · exact Option.noConfusion h
  · next hemoji =>
    have hem : cs[i]? = some '⏰' := by
      by_contra hc
      exact hemoji hc
    split at h
    · exact Option.noConfusion h
    · split at h
      · exact Option.noConfusion h
      · split at h
        · exact Option.noConfusion h
        · split at h
          · exact Option.noConfusion h
          · split at h
            · exact Option.noConfusion h
            · split at h
              · exact Option.noConfusion h
              · split at h
                · exact Option.noConfusion h
                · next e hh mm ap hr =>
                  injection h with h2
                  subst h2
                  obtain ⟨hs1, hs2, hs3⟩ := hourParse_spec cs _ e hh mm ap hr
                  have g1 : i + 1 ≤ wsEnd cs (i + 1) := wsEnd_ge cs (i + 1)
                  have g2 : wsEnd cs (i + 1) + 10 ≤ wsEnd cs (wsEnd cs (i + 1) + 10) :=
                    wsEnd_ge cs (wsEnd cs (i + 1) + 10)
                  refine ⟨?_, hs2, hem, hs3⟩
                  show i < e
                  omega

theorem ciMatch_len : ∀ (l pat : List Char), ciMatch l pat = true → pat.length ≤ l.length := by
  intro l pat
  induction pat generalizing l with
  | nil => intro h; exact Nat.zero_le _
  | cons pc pr ih =>
    intro h
    cases l with
    | nil => simp [ciMatch] at h
    | cons c r =>
      simp only [ciMatch, Bool.and_eq_true] at h
      have := ih r h.2
      simp only [List.length_cons]
      omega

theorem takeWhile_len (p : Char → Bool) : ∀ l : List Char, (l.takeWhile p).length ≤ l.length := by
  intro l
  induction l with
  | nil => exact Nat.le_refl 0
  | cons c r ih =>
    rw [List.takeWhile_cons]
    split
    · simpa using ih
    · exact Nat.zero_le _

theorem findUnitTok_ci (tail : List Char) (i : Nat) :
    ∀ (toks : List (List Char)) (tok : List Char) (j : Nat),
    findUnitTok tail i toks = some (tok, j) → ciMatch (tail.drop i) tok = true := by
  intro toks
  induction toks with
  | nil =>
    intro tok j h
    simp [findUnitTok] at h
  | cons t rest ih =>
    intro tok j h
    simp only [findUnitTok] at h
    split at h
    · next hg =>
      injection h with h2
      injection h2 with h3 h4
      subst h3
      simp only [Bool.and_eq_true] at hg
      exact hg.1
    · exact ih tok j h

theorem recurMatch_le (tail : List Char) : (recurMatch tail).2 ≤ tail.length := by
  rcases hrm : recurMatch tail with ⟨ro, n⟩
  show n ≤ tail.length
  simp only [recurMatch] at hrm
  split at hrm
  · injection hrm with h1 h2
    omega
  · split at hrm
    · injection hrm with h1 h2
      omega
    · split at hrm
      · injection hrm with h1 h2
        omega
      · split at hrm
        · injection hrm with h1 h2
          omega
        · next tok i6 hfind =>
          split at hrm
          · split at hrm
            · injection hrm with h1 h2
              obtain ⟨hmem, hj⟩ := findUnitTok_some tail _ unitTokens tok i6 hfind
              have hci := findUnitTok_ci tail _ unitTokens tok i6 hfind
              have hlen := ciMatch_len _ tok hci
              rw [List.length_drop] at hlen
              have htok := unitTokens_len tok hmem
              omega
            · injection hrm with h1 h2
              omega
          · injection hrm with h1 h2
            omega

/-! ### Scan/processing well-formedness -/

theorem processOne_fields (L : List Char) (s : Nat) (st : RawStamp) (ns : Nat) (o : Occ)
    (h : processOne L s st ns = some o) :
    o.when = ⟨st.y, st.mo, st.d, resolve12 st.hh st.ap, st.mm⟩
    ∧ o.context = trimWS (trimWS (L.take s)
        ++ (if ¬ trimWS (L.take s) = []
              ∧ ¬ trimWS (L.drop (st.endPos + (recurMatch (sliceL L st.endPos ns)).2)) = []
            then [' '] else [])
        ++ trimWS (L.drop (st.endPos + (recurMatch (sliceL L st.endPos ns)).2)))
    ∧ o.raw = sliceL L s st.endPos
    ∧ o.offset = s
    ∧ o.recur = (recurMatch (sliceL L st.endPos ns)).1
    ∧ o.endPos = st.endPos
    ∧ o.end2 = st.endPos + (recurMatch (sliceL L st.endPos ns)).2 := by
  simp only [processOne] at h
  split at h
  · exact Option.noConfusion h
  · split at h
    · exact Option.noConfusion h
    · injection h with h2
      subst h2
      exact ⟨rfl, rfl, rfl, rfl, rfl, rfl, rfl⟩

def nextOf (L : List Char) : List (Nat × RawStamp) → Nat
  | (s2, _) :: _ => s2
  | [] => L.length

theorem processAll_cons (L : List Char) (s : Nat) (st : RawStamp)
    (rest : List (Nat × RawStamp)) :
    processAll L ((s, st) :: rest)
      = match processOne L s st (nextOf L rest) with
        | some o => o :: processAll L rest
        | none => processAll L rest := by
  cases rest with
  | nil => rfl
  | cons q r2 =>
    obtain ⟨a, b⟩ := q
    rfl

/-- Invariant of the scan list produced by `scanGo`: starts are bounded
below, each raw stamp really matches at its start, and each element
starts at or after the previous match's resume point. -/
def scanWF (cs : List Char) : Nat → List (Nat × RawStamp) → Prop
  | _, [] => True
  | i, (s, st) :: rest =>
      i ≤ s ∧ matchStampAt cs s = some st ∧ scanWF cs (max st.endPos (s + 1)) rest

theorem scanWF_mono (cs : List Char) :
    ∀ (l : List (Nat × RawStamp)) (i j : Nat), i ≤ j → scanWF cs j l → scanWF cs i l := by
  intro l
  cases l with
  | nil =>
    intro i j _ _
    exact trivial
  | cons p rest =>
    obtain ⟨s, st⟩ := p
    intro i j hij h
    exact ⟨le_trans hij h.1, h.2⟩

theorem scanGo_wf (cs : List Char) : ∀ (f i : Nat), scanWF cs i (scanGo f cs i) := by
  intro f
  induction f with
  | zero =>
    intro i
    exact trivial
  | succ f ih =>
    intro i
    show scanWF cs i (scanGo (f + 1) cs i)
    rw [show scanGo (f + 1) cs i = (if i < cs.length then
        match matchStampAt cs i with
        | some st => (i, st) :: scanGo f cs (max st.endPos (i + 1))
        | none => scanGo f cs (i + 1)
      else []) from rfl]
    by_cases hlt : i < cs.length
    · rw [if_pos hlt]
      cases hm : matchStampAt cs i with
      | some st => exact ⟨le_refl i, hm, ih _⟩
      | none => exact scanWF_mono cs _ i (i + 1) (Nat.le_succ i) (ih (i + 1))
    · rw [if_neg hlt]
      exact trivial

theorem processAll_facts (L : List Char) :
    ∀ (S : List (Nat × RawStamp)) (j : Nat), scanWF L j S → ∀ o, o ∈ processAll L S →
    ∃ s st ns, processOne L s st ns = some o ∧ matchStampAt L s = some st
      ∧ j ≤ s ∧ st.endPos ≤ ns ∧ ns ≤ L.length := by
  intro S
  induction S with
  | nil =>
    intro j _ o ho
    simp [processAll] at ho
  | cons p rest ih =>
    obtain ⟨s0, st0⟩ := p
    intro j hwf o ho
    have hj0 : j ≤ s0 := hwf.1
    have hm0 : matchStampAt L s0 = some st0 := hwf.2.1
    have hwfr : scanWF L (max st0.endPos (s0 + 1)) rest := hwf.2.2
    rw [processAll_cons] at ho
    have hbound : st0.endPos ≤ nextOf L rest ∧ nextOf L rest ≤ L.length := by
      cases rest with
      | nil => exact ⟨(matchStampAt_spec L s0 st0 hm0).2.1, le_refl _⟩
      | cons q r2 =>
        obtain ⟨s1, st1⟩ := q
        have h1 : max st0.endPos (s0 + 1) ≤ s1 := hwfr.1
        have hm1 : matchStampAt L s1 = some st1 := hwfr.2.1
        have hsp := matchStampAt_spec L s1 st1 hm1
        have hs1len : s1 < L.length := getElem?_some_lt L s1 '⏰' hsp.2.2.1
        exact ⟨le_trans (le_max_left _ _) h1, le_of_lt hs1len⟩
    cases hp0 : processOne L s0 st0 (nextOf L rest) with
    | none =>
      rw [hp0] at ho
      obtain ⟨s, st, ns, h1, h2, h3, h4, h5⟩ := ih _ hwfr o ho
      refine ⟨s, st, ns, h1, h2, ?_, h4, h5⟩
      have : s0 + 1 ≤ max st0.endPos (s0 + 1) := le_max_right _ _
      omega
    | some oh =>
      rw [hp0] at ho
      rcases List.mem_cons.mp ho with he | hr
      · subst he
        exact ⟨s0, st0, nextOf L rest, hp0, hm0, hj0, hbound.1, hbound.2⟩
      · obtain ⟨s, st, ns, h1, h2, h3, h4, h5⟩ := ih _ hwfr o hr
        refine ⟨s, st, ns, h1, h2, ?_, h4, h5⟩
        have : s0 + 1 ≤ max st0.endPos (s0 + 1) := le_max_right _ _
        omega

theorem processOne_end2_le (L : List Char) (s : Nat) (st : RawStamp) (ns : Nat) (o : Occ)
    (h : processOne L s st ns = some o) (hns : st.endPos ≤ ns) : o.end2 ≤ ns := by
  have hf := processOne_fields L s st ns o h
  have hrm := recurMatch_le (sliceL L st.endPos ns)
  have hlen : (sliceL L st.endPos ns).length ≤ ns - st.endPos := by
    unfold sliceL
    rw [List.length_take]
    exact Nat.min_le_left _ _
  rw [hf.2.2.2.2.2.2]
  omega

theorem processAll_sep (L : List Char) :
    ∀ (S : List (Nat × RawStamp)) (j : Nat), scanWF L j S →
    ∀ o o2, o ∈ processAll L S → o2 ∈ processAll L S → ¬ o2 = o →
    o2.endPos ≤ o.offset ∨ o.end2 ≤ o2.offset := by
  intro S
  induction S with
  | nil =>
    intro j _ o o2 ho
    simp [processAll] at ho
  | cons p rest ih =>
    obtain ⟨s0, st0⟩ := p
    intro j hwf o o2 ho ho2 hne
    have hm0 : matchStampAt L s0 = some st0 := hwf.2.1
    have hwfr : scanWF L (max st0.endPos (s0 + 1)) rest := hwf.2.2
    rw [processAll_cons] at ho ho2
    cases hp0 : processOne L s0 st0 (nextOf L rest) with
    | none =>
      rw [hp0] at ho ho2
      exact ih _ hwfr o o2 ho ho2 hne
    | some oh =>
      rw [hp0] at ho ho2
      rcases List.mem_cons.mp ho with he | hr
      · rcases List.mem_cons.mp ho2 with he2 | hr2
        · rw [he, he2] at hne
          exact absurd rfl hne
        · subst he
          cases rest with
          | nil => simp [processAll] at hr2
          | cons q r2 =>
            obtain ⟨s1, st1⟩ := q
            have h1 : max st0.endPos (s0 + 1) ≤ s1 := hwfr.1
            have hend2 : o.end2 ≤ s1 :=
              processOne_end2_le L s0 st0 _ o hp0 (le_trans (le_max_left _ _) h1)
            have hwfr1 : scanWF L s1 ((s1, st1) :: r2) := ⟨le_refl s1, hwfr.2.1, hwfr.2.2⟩
            obtain ⟨s2, st2, ns2, hq1, _, hq3, _, _⟩ :=
              processAll_facts L _ s1 hwfr1 o2 hr2
            have hoff2 : o2.offset = s2 := (processOne_fields L s2 st2 ns2 o2 hq1).2.2.2.1
            refine Or.inr ?_
            rw [hoff2]
            omega
      · rcases List.mem_cons.mp ho2 with he2 | hr2
        · subst he2
          have ho2end : o2.endPos = st0.endPos :=
            (processOne_fields L s0 st0 _ o2 hp0).2.2.2.2.2.1
          obtain ⟨s, st, ns, hq1, _, hq3, _, _⟩ := processAll_facts L _ _ hwfr o hr
          have hoff : o.offset = s := (processOne_fields L s st ns o hq1).2.2.2.1
          refine Or.inl ?_
          rw [ho2end, hoff]
          have : st0.endPos ≤ max st0.endPos (s0 + 1) := le_max_left _ _
          omega
        · exact ih _ hwfr o o2 hr hr2 hne

/-- Spec-side description of the context text (the claim's wording):
the line with the occurrence's consumed span `[a, b)` removed, the two
remaining fragments trimmed and joined by a single space when both are
non-empty. -/
def contextSpec (L : List Char) (a b : Nat) : List Char :=
  trimWS (L.take a)
    ++ (if ¬ trimWS (L.take a) = [] ∧ ¬ trimWS (L.drop b) = [] then [' '] else [])
    ++ trimWS (L.drop b)

/-- C5: every occurrence's context equals the line with only that
occurrence's own consumed span (stamp plus its own recurrence suffix)
removed, fragments trimmed and joined by a single space when both are
non-empty; the raw text of any other stamp on the same line remains
verbatim (as an infix) in the context. -/
theorem claim_C5 (L : List Char) (o : Occ) (ho : o ∈ parseClockEmojiAll L) :
    o.context = contextSpec L o.offset o.end2
    ∧ o.offset < o.endPos ∧ o.endPos ≤ o.end2 ∧ o.end2 ≤ L.length
    ∧ o.raw = sliceL L o.offset o.endPos
    ∧ (∀ o2, o2 ∈ parseClockEmojiAll L → ¬ o2 = o → List.IsInfix o2.raw o.context) := by
  have hwf : scanWF L 0 (scanStamps L) := scanGo_wf L (L.length + 1) 0
  simp only [parseClockEmojiAll] at ho
  obtain ⟨s, st, ns, hp, hm, _, hns, hnslen⟩ := processAll_facts L (scanStamps L) 0 hwf o ho
  have hf := processOne_fields L s st ns o hp
  obtain ⟨hm1, hm2, hm3, hm4⟩ := matchStampAt_spec L s st hm
  have hoff : o.offset = s := hf.2.2.2.1
  have hend : o.endPos = st.endPos := hf.2.2.2.2.2.1
  have hend2 : o.end2 = st.endPos + (recurMatch (sliceL L st.endPos ns)).2 := hf.2.2.2.2.2.2
  have he2le : o.end2 ≤ ns := processOne_end2_le L s st ns o hp hns
  have he2len : o.end2 ≤ L.length := le_trans he2le hnslen
  have hctx : o.context = contextSpec L o.offset o.end2 := by
    rw [hf.2.1, hoff, hend2]
    unfold contextSpec
    exact trimWS_join (L.take s) (L.drop (st.endPos + (recurMatch (sliceL L st.endPos ns)).2))
  refine ⟨hctx, by rw [hoff, hend]; exact hm1, by rw [hend, hend2]; omega, he2len,
    by rw [hoff, hend]; exact hf.2.2.1, ?_⟩
  intro o2 ho2 hne
  simp only [parseClockEmojiAll] at ho2
  obtain ⟨s2, st2, ns2, hp2, hmB, _, hns2, hns2len⟩ :=
    processAll_facts L (scanStamps L) 0 hwf o2 ho2
  have hf2 := processOne_fields L s2 st2 ns2 o2 hp2
  obtain ⟨hq1, hq2, hq3, hq4⟩ := matchStampAt_spec L s2 st2 hmB
  have hoff2 : o2.offset = s2 := hf2.2.2.2.1
  have hendB : o2.endPos = st2.endPos := hf2.2.2.2.2.2.1
  have hraw2 : o2.raw = sliceL L s2 st2.endPos := hf2.2.2.1
  have hsep := processAll_sep L (scanStamps L) 0 hwf o o2 ho ho2 hne
  have hhead2 : ∃ c, (sliceL L s2 st2.endPos).head? = some c ∧ isWSC c = false := by
    refine ⟨'⏰', ?_, by decide⟩
    rw [slice_head L s2 st2.endPos hq1]
    exact hq3
  rcases hsep with hA | hB
  · -- the other stamp lies before this occurrence's span
    rw [hendB, hoff] at hA
    have hRdec : L.take s = (L.take s).take s2 ++ sliceL (L.take s) s2 st2.endPos
        ++ (L.take s).drop st2.endPos :=
      slice_decomp (L.take s) s2 st2.endPos (le_of_lt hq1)
    have hslice : sliceL (L.take s) s2 st2.endPos = sliceL L s2 st2.endPos :=
      slice_take L s2 st2.endPos s (le_of_lt hq1) hA
    have hlast2 : (∃ c, (sliceL (L.take s) s2 st2.endPos).getLast? = some c ∧ isWSC c = false)
        ∨ (∃ c, ((L.take s).drop st2.endPos).head? = some c ∧ isWSC c = false) := by
      rcases hq4 with ⟨d, hd, hdw⟩ | ⟨c, hcsome, hcword⟩
      · refine Or.inl ⟨d, ?_, hdw⟩
        rw [hslice, slice_last L s2 st2.endPos hq1 hq2]
        exact hd
      · have he2s : st2.endPos < s := by
          rcases Nat.lt_or_ge st2.endPos s with h | h
          · exact h
          · have heq : st2.endPos = s := le_antisymm hA h
            rw [heq, hm3] at hcsome
            injection hcsome with hcc
            subst hcc
            exact absurd hcword (by decide)
        refine Or.inr ⟨c, ?_, word_not_ws c hcword⟩
        rw [List.head?_drop, List.getElem?_take_of_lt he2s]
        exact hcsome
    have hinf0 : List.IsInfix (sliceL (L.take s) s2 st2.endPos) (trimWS (L.take s)) := by
      have h0 := raw_infix_trim ((L.take s).take s2) (sliceL (L.take s) s2 st2.endPos)
          ((L.take s).drop st2.endPos) (by rw [hslice]; exact hhead2) hlast2
      rw [← hRdec] at h0
      exact h0
    have hpre : List.IsInfix (trimWS (L.take s)) (contextSpec L o.offset o.end2) := by
      unfold contextSpec
      rw [hoff]
      exact ⟨[], (if ¬ trimWS (L.take s) = [] ∧ ¬ trimWS (L.drop o.end2) = []
          then [' '] else []) ++ trimWS (L.drop o.end2), by simp⟩
    rw [hraw2, ← hslice, hctx]
    exact hinf0.trans hpre
  · -- the other stamp lies after this occurrence's consumed span
    rw [hoff2] at hB
    have hke2 : o.end2 ≤ st2.endPos := by omega
    have hDdec : L.drop o.end2 = (L.drop o.end2).take (s2 - o.end2)
        ++ sliceL (L.drop o.end2) (s2 - o.end2) (st2.endPos - o.end2)
        ++ (L.drop o.end2).drop (st2.endPos - o.end2) :=
      slice_decomp (L.drop o.end2) (s2 - o.end2) (st2.endPos - o.end2) (by omega)
    have hslice : sliceL (L.drop o.end2) (s2 - o.end2) (st2.endPos - o.end2)
        = sliceL L s2 st2.endPos :=
      slice_drop L o.end2 s2 st2.endPos hB
    have hlast2 : (∃ c, (sliceL (L.drop o.end2) (s2 - o.end2) (st2.endPos - o.end2)).getLast?
          = some c ∧ isWSC c = false)
        ∨ (∃ c, ((L.drop o.end2).drop (st2.endPos - o.end2)).head? = some c
            ∧ isWSC c = false) := by
      rcases hq4 with ⟨d, hd, hdw⟩ | ⟨c, hcsome, hcword⟩
      · refine Or.inl ⟨d, ?_, hdw⟩
        rw [hslice, slice_last L s2 st2.endPos hq1 hq2]
        exact hd
      · refine Or.inr ⟨c, ?_, word_not_ws c hcword⟩
        rw [List.head?_drop, List.getElem?_drop,
          show o.end2 + (st2.endPos - o.end2) = st2.endPos from by omega]
        exact hcsome
    have hinf0 : List.IsInfix (sliceL (L.drop o.end2) (s2 - o.end2) (st2.endPos - o.end2))
        (trimWS (L.drop o.end2)) := by
      have h0 := raw_infix_trim ((L.drop o.end2).take (s2 - o.end2))
          (sliceL (L.drop o.end2) (s2 - o.end2) (st2.endPos - o.end2))
          ((L.drop o.end2).drop (st2.endPos - o.end2))
          (by rw [hslice]; exact hhead2) hlast2
      rw [← hDdec] at h0
      exact h0
    have hsuf : List.IsInfix (trimWS (L.drop o.end2)) (contextSpec L o.offset o.end2) := by
      unfold contextSpec
      exact ⟨trimWS (L.take o.offset)
          ++ (if ¬ trimWS (L.take o.offset) = [] ∧ ¬ trimWS (L.drop o.end2) = []
              then [' '] else []), [], by simp⟩
    rw [hraw2, ← hslice, hctx]
    exact hinf0.trans hsuf

/-- A two-stamp line used to witness the context claim. -/
def c5line : List Char := ("a ⏰ 2025-01-01 5 b ⏰ 2025-01-02 6 c").toList

/-- The first occurrence parsed from `c5line`. -/
def c5o1 : Occ :=
  ⟨⟨2025, 1, 1, 5, 0⟩, ("a b ⏰ 2025-01-02 6 c").toList, ("⏰ 2025-01-01 5 ").toList,
    2, none, 17, 17⟩

/-- The second occurrence parsed from `c5line`. -/
def c5o2 : Occ :=
  ⟨⟨2025, 1, 2, 6, 0⟩, ("a ⏰ 2025-01-01 5 b c").toList, ("⏰ 2025-01-02 6 ").toList,
    19, none, 34, 34⟩

/-- C5 witness: on the two-stamp line the first occurrence's context
matches the spec-side formula, and the second stamp's raw text is
verbatim inside it. -/
theorem claim_C5_witness :
    c5o1.context = contextSpec c5line c5o1.offset c5o1.end2
    ∧ List.IsInfix c5o2.raw c5o1.context :=
  ⟨(claim_C5 c5line c5o1 (by decide)).1,
   (claim_C5 c5line c5o1 (by decide)).2.2.2.2.2 c5o2 (by decide) (by decide)⟩
